import Mathlib

/-!
# Verification of the nbds non-blocking data structure library

Shallow embedding of the single-threaded (quiescent) semantics of the
nbds maps (sorted linked list, skiplist, resizable hash table), of the
STM transaction entry points, and of the RCU-style quiescent-state
reclamation scheme, together with proofs and refutations of the
specification claims.

Machine integers: all 64-bit C values (`uint64_t`, `map_key_t`,
`map_val_t`, `markable_t`) are embedded as `Nat` together with explicit
`% 2^64` / `% 2^32` arithmetic where C overflow or truncation matters.
Atomic RMW operations (`SYNC_CAS`, `SYNC_SWAP`, `SYNC_FETCH_AND_OR`)
performed by a single thread on a location it has just read always
observe that read, so in this single-threaded embedding they are plain
assignments; the retry paths guarded by a failed CAS are consequently
dead and are noted at each definition.
-/

namespace Nbds

/-- `2^64`, the modulus of the C type `uint64_t`. -/
def U64 : Nat := 2 ^ 64

/-- Modelled from the spec: the two-tag `common.h` used by the `map/`
revision is not under `src/` (the shipped `include/common.h` is an older
single-tag revision).  Spec section 3: a 64-bit word reserves two high
bits, T1 and T2.  T1 is the highest bit, as witnessed by
`TOMBSTONE = STRIP_TAG(-1, TAG1)` together with the source assertion
`COPIED_VALUE == TAG_VALUE(TOMBSTONE, TAG1)` in `map/hashtable.c`. -/
def TAG1 : Nat := 2 ^ 63

/-- Modelled from the spec: the second reserved high bit (spec section 3,
used by the STM layer to mark update-chain heads). -/
def TAG2 : Nat := 2 ^ 62

/-- The reserved `ABSENT` value (zero). -/
def DOES_NOT_EXIST : Nat := 0

def CAS_EXPECT_DOES_NOT_EXIST : Nat := 0

/-- `(uint64_t)(-1)`. -/
def CAS_EXPECT_EXISTS : Nat := U64 - 1

/-- `(uint64_t)(-2)`. -/
def CAS_EXPECT_WHATEVER : Nat := U64 - 2

/-- `IS_TAGGED(v, TAG1)`: bit 63 of the 64-bit word. -/
def hasTag1 (v : Nat) : Bool := v.testBit 63

/-- `STRIP_TAG(v, TAG1)` for a 64-bit word: clear bit 63. -/
def stripTag1 (v : Nat) : Nat := v % TAG1

/-- `TAG_VALUE(v, TAG1)`: set bit 63. -/
def withTag1 (v : Nat) : Nat := if v.testBit 63 then v else v + TAG1

/-- `IS_TAGGED(v, TAG2)`: bit 62 of the 64-bit word. -/
def hasTag2 (v : Nat) : Bool := v.testBit 62

/-- `TAG_VALUE(v, TAG2)`: set bit 62. -/
def withTag2 (v : Nat) : Nat := if v.testBit 62 then v else v + TAG2

/-- `STRIP_TAG(v, TAG2)`: clear bit 62. -/
def stripTag2 (v : Nat) : Nat := if v.testBit 62 then v - TAG2 else v

/-- A legal client value: untagged (neither T1 nor T2) and not the
reserved `ABSENT` sentinel.  Spec section 3: every client value fits in
the low 62 bits and zero is reserved. -/
def LegalVal (v : Nat) : Prop := 0 < v ∧ v < TAG2

instance (v : Nat) : Decidable (LegalVal v) :=
  inferInstanceAs (Decidable (0 < v ∧ v < TAG2))

/-- The C expression `(int)(a - b)` evaluated on `uint64_t` operands:
the 64-bit difference is truncated to 32 bits and read as a signed
two's-complement value.  This is the key comparison of both
`find_pred` (src/map/list.c:128) and `find_preds`
(src/map/skiplist.c:179). -/
def sub64 (a b : Nat) : Nat := (a % U64 + (U64 - b % U64)) % U64

/-- Truncate a natural number to 32 bits and read the result as a signed
two's-complement `int`. -/
def toInt32 (n : Nat) : Int :=
  if n % 2 ^ 32 < 2 ^ 31 then ((n % 2 ^ 32 : Nat) : Int)
  else ((n % 2 ^ 32 : Nat) : Int) - 2 ^ 32

def cDiff32 (a b : Nat) : Int := toInt32 (sub64 a b)

/-- For operands below `2^31` the truncated C comparison agrees with the
mathematical difference. -/
theorem cDiff32_eq_sub {a b : Nat} (ha : a < 2 ^ 31) (hb : b < 2 ^ 31) :
    cDiff32 a b = (a : Int) - b := by
  unfold cDiff32 toInt32 sub64 U64
  have ha64 : a % 2 ^ 64 = a := Nat.mod_eq_of_lt (by omega)
  have hb64 : b % 2 ^ 64 = b := Nat.mod_eq_of_lt (by omega)
  rw [ha64, hb64]
  rcases le_or_lt b a with hba | hab
  · have h1 : (a + (2 ^ 64 - b)) % 2 ^ 64 = a - b := by
      have : a + (2 ^ 64 - b) = 2 ^ 64 + (a - b) := by omega
      rw [this, Nat.add_mod_left]
      exact Nat.mod_eq_of_lt (by omega)
    rw [h1]
    have h2 : (a - b) % 2 ^ 32 = a - b := Nat.mod_eq_of_lt (by omega)
    rw [h2]
    have h3 : a - b < 2 ^ 31 := by omega
    simp only [if_pos h3]
    omega
  · have h1 : (a + (2 ^ 64 - b)) % 2 ^ 64 = a + (2 ^ 64 - b) :=
      Nat.mod_eq_of_lt (by omega)
    rw [h1]
    have h2 : a + (2 ^ 64 - b) = (2 ^ 32 - (b - a)) + (2 ^ 32) * (2 ^ 32 - 1) := by
      omega
    rw [h2, Nat.add_mul_mod_self_left]
    have h3 : (2 ^ 32 - (b - a)) % 2 ^ 32 = 2 ^ 32 - (b - a) :=
      Nat.mod_eq_of_lt (by omega)
    rw [h3]
    have h4 : ¬ (2 ^ 32 - (b - a) < 2 ^ 31) := by omega
    simp only [if_neg h4]
    omega

/-- `cDiff32 a b = 0` does not imply `a = b`: keys that agree modulo
`2^32` collide under the truncated comparison. -/
theorem cDiff32_mod_collision :
    cDiff32 (2 ^ 32 + 5) 5 = 0 ∧ (2 ^ 32 + 5 : Nat) ≠ 5 := by
  constructor
  · decide
  · decide

/-! ## Sorted linked list (src/map/list.c)

A node carries its key, its value, and the T1 mark of its own `next`
link (a marked `next` means the node is logically removed).  The state
of a list is the chain of nodes hanging off the dummy head, in link
order; the dummy head itself (key 0, never removed) is implicit.

All operations below are the single-threaded semantics of the source:
every `SYNC_CAS` / `SYNC_SWAP` / `SYNC_FETCH_AND_OR` observes the value
the same thread just read, hence succeeds, and the retry paths guarded
by a failed CAS are unreachable.  The one remaining retry —
`ll_cas` finding a matching node whose value has been set to
`DOES_NOT_EXIST` (list.c:226) — loops forever in a single-threaded
execution; it is represented by the result `none`. -/

structure LNode where
  key : Nat
  val : Nat
  marked : Bool
  deriving Repr, DecidableEq

/-- Keys of the chain with T1-marked nodes stripped (the spec's
"bottom-level chain after stripping T1 marks"). -/
def strippedKeys (c : List LNode) : List Nat :=
  (c.filter (fun n => ¬ n.marked)).map LNode.key

/-- The ordered-structure invariant: keys along the chain are strictly
increasing once marked nodes are stripped. -/
def ChainOrdered (c : List LNode) : Prop :=
  (strippedKeys c).Chain' (· < ·)

instance (c : List LNode) : Decidable (ChainOrdered c) :=
  inferInstanceAs (Decidable ((strippedKeys c).Chain' (· < ·)))

/-- `ll_lookup` (src/map/list.c:166-182): `find_pred` with
`help_remove = FALSE` skips marked nodes without unlinking and stops at
the first unmarked node with `d = (int)(node.key - key) >= 0`; on `d = 0`
the node's value is returned unless it is `DOES_NOT_EXIST`. -/
def ll_lookup (key : Nat) : List LNode → Nat
  | [] => DOES_NOT_EXIST
  | n :: rest =>
    if n.marked then ll_lookup key rest
    else if cDiff32 n.key key < 0 then ll_lookup key rest
    else if cDiff32 n.key key = 0 then n.val
    else DOES_NOT_EXIST

/-- `ll_cas` (src/map/list.c:184-251), single-threaded.  The traversal
(`find_pred` with `help_remove = TRUE`) physically unlinks every marked
node it passes.  Returns `none` for the one genuinely divergent path
(matched node with value `DOES_NOT_EXIST`, list.c:226), otherwise
`some (returned value, new chain)`. -/
def ll_cas (key expectation new_val : Nat) : List LNode → Option (Nat × List LNode)
  | [] =>
    if (0 < expectation ∧ expectation < TAG1) ∨ expectation = CAS_EXPECT_EXISTS then
      some (DOES_NOT_EXIST, [])
    else
      some (DOES_NOT_EXIST, [⟨key, new_val, false⟩])
  | n :: rest =>
    if n.marked then ll_cas key expectation new_val rest
    else if cDiff32 n.key key < 0 then
      match ll_cas key expectation new_val rest with
      | some (r, rest') => some (r, n :: rest')
      | none => none
    else if cDiff32 n.key key = 0 then
      if n.val = DOES_NOT_EXIST then none
      else if expectation = CAS_EXPECT_DOES_NOT_EXIST then some (n.val, n :: rest)
      else some (n.val, { n with val := new_val } :: rest)
    else
      if (0 < expectation ∧ expectation < TAG1) ∨ expectation = CAS_EXPECT_EXISTS then
        some (DOES_NOT_EXIST, n :: rest)
      else
        some (DOES_NOT_EXIST, ⟨key, new_val, false⟩ :: n :: rest)

/-- `ll_remove` (src/map/list.c:253-299), single-threaded: traversal
unlinks marked nodes; on a match the node is marked, its value swapped
out with `DOES_NOT_EXIST` (the swapped-out value is returned) and the
node unlinked. -/
def ll_remove (key : Nat) : List LNode → Nat × List LNode
  | [] => (DOES_NOT_EXIST, [])
  | n :: rest =>
    if n.marked then ll_remove key rest
    else if cDiff32 n.key key < 0 then
      let (r, rest') := ll_remove key rest
      (r, n :: rest')
    else if cDiff32 n.key key = 0 then (n.val, rest)
    else (DOES_NOT_EXIST, n :: rest)

example : ll_cas 3 CAS_EXPECT_DOES_NOT_EXIST 7 [] = some (0, [⟨3, 7, false⟩]) := by decide

example : ll_lookup 3 [⟨3, 7, false⟩] = 7 := by decide

example : ll_remove 3 [⟨2, 1, false⟩, ⟨3, 7, false⟩] = (7, [⟨2, 1, false⟩]) := by decide

/-- Comparison helper: on keys below `2^31` the truncated comparison is
negative exactly for a genuinely smaller key. -/
theorem cDiff32_neg_iff {a b : Nat} (ha : a < 2 ^ 31) (hb : b < 2 ^ 31) :
    cDiff32 a b < 0 ↔ a < b := by
  rw [cDiff32_eq_sub ha hb]
  omega

/-- Comparison helper: on keys below `2^31` the truncated comparison is
zero exactly for equal keys. -/
theorem cDiff32_zero_iff {a b : Nat} (ha : a < 2 ^ 31) (hb : b < 2 ^ 31) :
    cDiff32 a b = 0 ↔ a = b := by
  rw [cDiff32_eq_sub ha hb]
  omega

/-- Well-formed quiescent list state: strictly ascending keys, no
logically removed nodes (a single-threaded `ll_remove` always completes
its unlink), keys in the range where the truncated comparison is exact,
and nonzero stored values (clients may not store `ABSENT`). -/
def ListWF (c : List LNode) : Prop :=
  List.Pairwise (fun a b => a.key < b.key) c ∧
    ∀ n ∈ c, n.marked = false ∧ n.key < 2 ^ 31 ∧ 0 < n.val

instance (c : List LNode) : Decidable (ListWF c) :=
  inferInstanceAs (Decidable (List.Pairwise (fun (a b : LNode) => a.key < b.key) c ∧
    ∀ n ∈ c, n.marked = false ∧ n.key < 2 ^ 31 ∧ 0 < n.val))

theorem ListWF.tail {n : LNode} {c : List LNode} (h : ListWF (n :: c)) : ListWF c :=
  ⟨h.1.tail, fun m hm => h.2 m (List.mem_cons_of_mem n hm)⟩

theorem ListWF.head {n : LNode} {c : List LNode} (h : ListWF (n :: c)) :
    n.marked = false ∧ n.key < 2 ^ 31 ∧ 0 < n.val :=
  h.2 n (List.mem_cons_self n c)

/-- Sorted insertion: the chain `ll_cas` produces when the key is absent. -/
def insertChain (k v : Nat) : List LNode → List LNode
  | [] => [⟨k, v, false⟩]
  | n :: rest => if n.key < k then n :: insertChain k v rest else ⟨k, v, false⟩ :: n :: rest

/-- On a well-formed chain not containing `k`, `ll_cas` with expectation
`DOES_NOT_EXIST` succeeds, returns `ABSENT` and inserts the node in key
order. -/
theorem ll_cas_insert {k : Nat} (v : Nat) (hk : k < 2 ^ 31) :
    ∀ c : List LNode, ListWF c → (∀ n ∈ c, n.key ≠ k) →
      ll_cas k CAS_EXPECT_DOES_NOT_EXIST v c = some (DOES_NOT_EXIST, insertChain k v c)
  | [] => by
    intro _ _
    simp [ll_cas, insertChain, CAS_EXPECT_DOES_NOT_EXIST, CAS_EXPECT_EXISTS, U64]
  | n :: rest => by
    intro hwf habs
    obtain ⟨hm, hk31, _⟩ := hwf.head
    have hne : n.key ≠ k := habs n (List.mem_cons_self n rest)
    rcases lt_or_gt_of_ne hne with hlt | hgt
    · have hd : cDiff32 n.key k < 0 := (cDiff32_neg_iff hk31 hk).mpr hlt
      have ih := ll_cas_insert v hk rest hwf.tail
        (fun m hm' => habs m (List.mem_cons_of_mem n hm'))
      simp [ll_cas, hm, hd, insertChain, hlt, ih]
    · have hd0 : ¬ cDiff32 n.key k < 0 := by
        rw [cDiff32_neg_iff hk31 hk]; omega
      have hd1 : ¬ cDiff32 n.key k = 0 := by
        rw [cDiff32_zero_iff hk31 hk]; omega
      simp [ll_cas, hm, hd0, hd1, insertChain, CAS_EXPECT_DOES_NOT_EXIST,
        CAS_EXPECT_EXISTS, U64, show ¬ n.key < k by omega]

/-- A member of the insertion result is an original member or the new node. -/
theorem insertChain_mem {k v : Nat} :
    ∀ {c : List LNode} {x : LNode},
      x ∈ insertChain k v c → x ∈ c ∨ x = ⟨k, v, false⟩
  | [], x => by simp [insertChain]
  | n :: rest, x => by
    by_cases ha : n.key < k
    · rw [insertChain, if_pos ha]
      intro hx
      rcases List.mem_cons.mp hx with rfl | hx'
      · left; exact List.mem_cons_self _ _
      · rcases insertChain_mem hx' with h' | h'
        · left; exact List.mem_cons_of_mem _ h'
        · right; exact h'
    · rw [insertChain, if_neg ha]
      intro hx
      rcases List.mem_cons.mp hx with rfl | hx'
      · right; rfl
      · left; exact hx'

/-- Inserting a fresh key in order preserves well-formedness. -/
theorem insertChain_wf {k v : Nat} (hk : k < 2 ^ 31) (hv : 0 < v) :
    ∀ c : List LNode, ListWF c → (∀ n ∈ c, n.key ≠ k) → ListWF (insertChain k v c)
  | [] => by
    intro _ _
    refine ⟨by simp [insertChain], ?_⟩
    intro m hm
    simp [insertChain] at hm
    subst hm
    exact ⟨rfl, hk, hv⟩
  | n :: rest => by
    intro hwf habs
    obtain ⟨hm, hk31, hval⟩ := hwf.head
    have hsorted := List.pairwise_cons.mp hwf.1
    by_cases hlt : n.key < k
    · have ih := insertChain_wf hk hv rest hwf.tail
        (fun m hm' => habs m (List.mem_cons_of_mem n hm'))
      rw [insertChain, if_pos hlt]
      refine ⟨?_, ?_⟩
      · rw [List.pairwise_cons]
        refine ⟨?_, ih.1⟩
        intro m hmem
        rcases insertChain_mem hmem with hin | rfl
        · exact hsorted.1 m hin
        · exact hlt
      · intro m hmem
        rw [List.mem_cons] at hmem
        rcases hmem with rfl | hmem'
        · exact ⟨hm, hk31, hval⟩
        · exact ih.2 m hmem'
    · rw [insertChain, if_neg hlt]
      have hne : n.key ≠ k := habs n (List.mem_cons_self n rest)
      refine ⟨?_, ?_⟩
      · rw [List.pairwise_cons]
        refine ⟨?_, hwf.1⟩
        intro m hmem
        rw [List.mem_cons] at hmem
        rcases hmem with rfl | hmem'
        · show k < m.key
          omega
        · show k < m.key
          exact lt_of_le_of_lt (by omega : k ≤ n.key) (hsorted.1 m hmem')
      · intro m hmem
        rw [List.mem_cons] at hmem
        rcases hmem with rfl | hmem'
        · exact ⟨rfl, hk, hv⟩
        · exact hwf.2 m hmem'

/-- Looking up the freshly inserted key returns the inserted value. -/
theorem ll_lookup_insert {k : Nat} (v : Nat) (hk : k < 2 ^ 31) :
    ∀ c : List LNode, ListWF c → (∀ n ∈ c, n.key ≠ k) →
      ll_lookup k (insertChain k v c) = v
  | [] => by
    intro _ _
    simp [insertChain, ll_lookup, cDiff32_zero_iff hk hk,
      show ¬ cDiff32 k k < 0 by rw [cDiff32_neg_iff hk hk]; omega]
  | n :: rest => by
    intro hwf habs
    obtain ⟨hm, hk31, _⟩ := hwf.head
    by_cases hlt : n.key < k
    · have hd : cDiff32 n.key k < 0 := (cDiff32_neg_iff hk31 hk).mpr hlt
      have ih := ll_lookup_insert v hk rest hwf.tail
        (fun m hm' => habs m (List.mem_cons_of_mem n hm'))
      rw [insertChain, if_pos hlt]
      simp [ll_lookup, hm, hd, ih]
    · rw [insertChain, if_neg hlt]
      simp [ll_lookup, cDiff32_zero_iff hk hk,
        show ¬ cDiff32 k k < 0 by rw [cDiff32_neg_iff hk hk]; omega]

/-- Removing the freshly inserted key returns the inserted value and
restores the original chain. -/
theorem ll_remove_insert {k : Nat} (v : Nat) (hk : k < 2 ^ 31) :
    ∀ c : List LNode, ListWF c → (∀ n ∈ c, n.key ≠ k) →
      ll_remove k (insertChain k v c) = (v, c)
  | [] => by
    intro _ _
    simp [insertChain, ll_remove, cDiff32_zero_iff hk hk,
      show ¬ cDiff32 k k < 0 by rw [cDiff32_neg_iff hk hk]; omega]
  | n :: rest => by
    intro hwf habs
    obtain ⟨hm, hk31, _⟩ := hwf.head
    by_cases hlt : n.key < k
    · have hd : cDiff32 n.key k < 0 := (cDiff32_neg_iff hk31 hk).mpr hlt
      have ih := ll_remove_insert v hk rest hwf.tail
        (fun m hm' => habs m (List.mem_cons_of_mem n hm'))
      rw [insertChain, if_pos hlt]
      simp [ll_remove, hm, hd, ih]
    · rw [insertChain, if_neg hlt]
      simp [ll_remove, cDiff32_zero_iff hk hk,
        show ¬ cDiff32 k k < 0 by rw [cDiff32_neg_iff hk hk]; omega]

/-- Looking up an absent key returns `ABSENT`. -/
theorem ll_lookup_absent {k : Nat} (hk : k < 2 ^ 31) :
    ∀ c : List LNode, ListWF c → (∀ n ∈ c, n.key ≠ k) → ll_lookup k c = DOES_NOT_EXIST
  | [] => by intro _ _; simp [ll_lookup]
  | n :: rest => by
    intro hwf habs
    obtain ⟨hm, hk31, _⟩ := hwf.head
    have hne : n.key ≠ k := habs n (List.mem_cons_self n rest)
    by_cases hlt : n.key < k
    · have hd : cDiff32 n.key k < 0 := (cDiff32_neg_iff hk31 hk).mpr hlt
      have ih := ll_lookup_absent hk rest hwf.tail
        (fun m hm' => habs m (List.mem_cons_of_mem n hm'))
      simp [ll_lookup, hm, hd, ih]
    · have hd0 : ¬ cDiff32 n.key k < 0 := by
        rw [cDiff32_neg_iff hk31 hk]; omega
      have hd1 : ¬ cDiff32 n.key k = 0 := by
        rw [cDiff32_zero_iff hk31 hk]; omega
      simp [ll_lookup, hm, hd0, hd1]

/-- On a well-formed chain not containing `k`, a `ll_cas` whose
expectation demands an existing entry fails, returns `ABSENT`, and (no
marked node being present to unlink) leaves the chain unchanged. -/
theorem ll_cas_fail_absent {k e : Nat} (v : Nat) (hk : k < 2 ^ 31)
    (he : (0 < e ∧ e < TAG1) ∨ e = CAS_EXPECT_EXISTS) :
    ∀ c : List LNode, ListWF c → (∀ n ∈ c, n.key ≠ k) →
      ll_cas k e v c = some (DOES_NOT_EXIST, c)
  | [] => by
    intro _ _
    rw [ll_cas, if_pos he]
  | n :: rest => by
    intro hwf habs
    obtain ⟨hm, hk31, _⟩ := hwf.head
    have hne : n.key ≠ k := habs n (List.mem_cons_self n rest)
    rcases lt_or_gt_of_ne hne with hlt | hgt
    · have hd : cDiff32 n.key k < 0 := (cDiff32_neg_iff hk31 hk).mpr hlt
      have ih := ll_cas_fail_absent v hk he rest hwf.tail
        (fun m hm' => habs m (List.mem_cons_of_mem n hm'))
      simp [ll_cas, hm, hd, ih]
    · have hd0 : ¬ cDiff32 n.key k < 0 := by
        rw [cDiff32_neg_iff hk31 hk]; omega
      have hd1 : ¬ cDiff32 n.key k = 0 := by
        rw [cDiff32_zero_iff hk31 hk]; omega
      simp [ll_cas, hm, hd0, hd1, if_pos he]

/-- On a well-formed chain where `k` is stored, a `ll_cas` with
expectation `DOES_NOT_EXIST` fails: it returns the observed value and
leaves the chain unchanged. -/
theorem ll_cas_dne_present {k : Nat} (v : Nat) (hk : k < 2 ^ 31) :
    ∀ c : List LNode, ListWF c →
      ∀ m ∈ c, m.key = k →
        ll_cas k CAS_EXPECT_DOES_NOT_EXIST v c = some (m.val, c)
  | [] => by intro _ m hm; simp at hm
  | n :: rest => by
    intro hwf m hmem hkey
    obtain ⟨hmk, hk31, hval⟩ := hwf.head
    rw [List.mem_cons] at hmem
    rcases hmem with rfl | hmem'
    · have hd1 : cDiff32 m.key k = 0 := by
        rw [cDiff32_zero_iff hk31 hk]; exact hkey
      have hd0 : ¬ cDiff32 m.key k < 0 := by
        rw [cDiff32_neg_iff hk31 hk]; omega
      have hv0 : ¬ m.val = DOES_NOT_EXIST := by
        unfold DOES_NOT_EXIST; omega
      simp [ll_cas, hmk, hd0, hd1, hv0, CAS_EXPECT_DOES_NOT_EXIST]
    · have hlt : n.key < m.key := (List.pairwise_cons.mp hwf.1).1 m hmem'
      have hm31 : m.key < 2 ^ 31 := (hwf.2 m (List.mem_cons_of_mem n hmem')).2.1
      have hd : cDiff32 n.key k < 0 := by
        rw [cDiff32_neg_iff hk31 hk]; omega
      have ih := ll_cas_dne_present v hk rest hwf.tail m hmem' hkey
      simp [ll_cas, hmk, hd, ih]

/-! ## Skiplist (src/map/skiplist.c)

The embedding represents a quiescent, fully-linked skiplist with
integer keys: every tower of a node with `top_level = t` is linked into
the chains of all levels `0 .. t`, and no `next` link carries a T1
mark.  A single-threaded execution preserves this shape — every CAS
observes the preceding read of the same thread, so `sl_cas` links all
levels of a new tower and `sl_remove` unlinks all of them before
returning.  The state is the bottom-level chain in link order; the
level-`i` chain is, by full linkage, the subsequence of nodes with
`top_level ≥ i`, which is how `next[i]` pointers are interpreted
below. -/

def MAX_LEVEL : Nat := 31

structure SNode where
  key : Nat
  val : Nat
  topLevel : Nat
  deriving Repr, DecidableEq

/-- Dereference of `pred->next[lvl]` relative to the part of the bottom
chain strictly after `pred`: the first node of the suffix with a tower
reaching `lvl`, together with the remaining suffix. -/
def nextAtLevel (lvl : Nat) : List SNode → Option (SNode × List SNode)
  | [] => none
  | n :: rest => if lvl ≤ n.topLevel then some (n, rest) else nextAtLevel lvl rest

theorem nextAtLevel_length {lvl : Nat} :
    ∀ {s : List SNode} {n : SNode} {r : List SNode},
      nextAtLevel lvl s = some (n, r) → r.length < s.length
  | [], _, _ => by simp [nextAtLevel]
  | m :: rest, n, r => by
    intro he
    by_cases h : lvl ≤ m.topLevel
    · rw [nextAtLevel, if_pos h] at he
      injection he with he'
      injection he' with he1 he2
      subst he2
      simp
    · rw [nextAtLevel, if_neg h] at he
      exact Nat.lt_trans (nextAtLevel_length he) (by simp)

theorem nextAtLevel_split {lvl : Nat} :
    ∀ {s : List SNode} {n : SNode} {r : List SNode},
      nextAtLevel lvl s = some (n, r) →
        ∃ l, s = l ++ n :: r ∧ ∀ x ∈ l, x.topLevel < lvl
  | [], _, _ => by simp [nextAtLevel]
  | m :: rest, n, r => by
    intro he
    by_cases h : lvl ≤ m.topLevel
    · rw [nextAtLevel, if_pos h] at he
      injection he with he'
      injection he' with he1 he2
      subst he1; subst he2
      exact ⟨[], rfl, by simp⟩
    · rw [nextAtLevel, if_neg h] at he
      obtain ⟨l, hl, hlt⟩ := nextAtLevel_split he
      refine ⟨m :: l, by simp [hl], ?_⟩
      intro x hx
      rcases List.mem_cons.mp hx with rfl | hx'
      · omega
      · exact hlt x hx'

/-- One level of the `find_preds` walk (src/map/skiplist.c:124-191):
advance along the level-`lvl` chain while the truncated comparison says
the key is smaller, and return the suffix of the bottom chain strictly
after the final predecessor at this level. -/
def walkLevel (k lvl : Nat) (s : List SNode) : List SNode :=
  match h : nextAtLevel lvl s with
  | none => s
  | some (n, r) => if cDiff32 n.key k < 0 then walkLevel k lvl r else s
termination_by s.length
decreasing_by exact nextAtLevel_length h

/-- Descend the levels `lvl, lvl-1, …, 0`, walking at each one. -/
def slFindFrom (k : Nat) : Nat → List SNode → List SNode
  | 0, s => walkLevel k 0 s
  | lvl + 1, s => slFindFrom k lvl (walkLevel k (lvl + 1) s)

/-- `head->next[lvl] != DOES_NOT_EXIST`: some tower reaches `lvl`. -/
def headLevelNonempty (sl : List SNode) (lvl : Nat) : Bool :=
  sl.any (fun n => lvl ≤ n.topLevel)

/-- The doubling probe for the start level
(src/map/skiplist.c:108-117). -/
def startLevelLoop (sl : List SNode) : Nat → Nat → Nat
  | 0, s => s
  | fuel + 1, s =>
    if headLevelNonempty sl (s + 1) then
      if MAX_LEVEL ≤ s + s - 1 then MAX_LEVEL else startLevelLoop sl fuel (s + s - 1)
    else s

/-- The level `find_preds` starts its descent from: the doubling probe
from level 2, raised to `n` when the caller requested more levels
(src/map/skiplist.c:107-120).  `n = -1` is the remove path. -/
def findStartLevel (sl : List SNode) (n : Int) : Nat :=
  let s := startLevelLoop sl 32 2
  if (s : Int) < n then n.toNat else s

/-- `find_preds` (src/map/skiplist.c:102-218), single-threaded, on a
fully-linked unmarked skiplist: the suffix of the bottom chain starting
at the level-0 stop node.  The stop node (`item` at loop exit) is the
head of this suffix; the match test `d == 0` of the source is applied by
each caller below. -/
def slFind (sl : List SNode) (k : Nat) (n : Int) : List SNode :=
  slFindFrom k (findStartLevel sl n) sl

/-- `sl_lookup` (src/map/skiplist.c:221-236). -/
def sl_lookup (sl : List SNode) (k : Nat) : Nat :=
  match slFind sl k 0 with
  | [] => DOES_NOT_EXIST
  | m :: _ =>
    if cDiff32 m.key k = 0 then
      if m.val ≠ DOES_NOT_EXIST then m.val else DOES_NOT_EXIST
    else DOES_NOT_EXIST

/-- `sl_cas` (src/map/skiplist.c:249-354), single-threaded, with the
tower height `lvl` (the `random_level()` draw) passed as a parameter.
All level-0 and higher-level link CASes succeed, so an insert places
the fully-linked tower at the bottom-chain position found by
`find_preds`; the one divergent retry (matched node with value already
swapped to `DOES_NOT_EXIST`, skiplist.c:298) is `none`. -/
def sl_cas (sl : List SNode) (k exp newv lvl : Nat) : Option (Nat × List SNode) :=
  match slFind sl k (lvl : Int) with
  | [] =>
    if (0 < exp ∧ exp < TAG1) ∨ exp = CAS_EXPECT_EXISTS then some (DOES_NOT_EXIST, sl)
    else some (DOES_NOT_EXIST, sl ++ [⟨k, newv, lvl⟩])
  | m :: rest =>
    if cDiff32 m.key k = 0 then
      if m.val = DOES_NOT_EXIST then none
      else if exp = CAS_EXPECT_DOES_NOT_EXIST then some (m.val, sl)
      else some (m.val, sl.take (sl.length - (m :: rest).length) ++ { m with val := newv } :: rest)
    else
      if (0 < exp ∧ exp < TAG1) ∨ exp = CAS_EXPECT_EXISTS then some (DOES_NOT_EXIST, sl)
      else some (DOES_NOT_EXIST,
        sl.take (sl.length - (m :: rest).length) ++ ⟨k, newv, lvl⟩ :: m :: rest)

/-- `sl_remove` (src/map/skiplist.c:356-435), single-threaded: on a
match, all levels are marked top-down and unlinked, the value is
swapped out with `DOES_NOT_EXIST` and returned. -/
def sl_remove (sl : List SNode) (k : Nat) : Nat × List SNode :=
  match slFind sl k (-1) with
  | [] => (DOES_NOT_EXIST, sl)
  | m :: rest =>
    if cDiff32 m.key k = 0 then
      (m.val, sl.take (sl.length - (m :: rest).length) ++ rest)
    else (DOES_NOT_EXIST, sl)

/-- Well-formed quiescent skiplist state: strictly ascending keys in the
range where the truncated comparison is exact, and nonzero stored
values. -/
def SlWF (sl : List SNode) : Prop :=
  List.Pairwise (fun a b => a.key < b.key) sl ∧ ∀ n ∈ sl, n.key < 2 ^ 31 ∧ 0 < n.val

instance (sl : List SNode) : Decidable (SlWF sl) :=
  inferInstanceAs (Decidable (List.Pairwise (fun (a b : SNode) => a.key < b.key) sl ∧
    ∀ n ∈ sl, n.key < 2 ^ 31 ∧ 0 < n.val))

/-- The search predicate of the bottom-level walk. -/
def belowKey (k : Nat) (n : SNode) : Bool := decide (cDiff32 n.key k < 0)

/-- The bottom-level suffix at which every level walk of a sorted
skiplist lands. -/
def dropLt (k : Nat) (sl : List SNode) : List SNode := sl.dropWhile (belowKey k)

/-- A level walk drops only nodes whose key is below the search key. -/
theorem walkLevel_split {k : Nat} (hk : k < 2 ^ 31) (lvl : Nat) (s : List SNode)
    (hs : List.Pairwise (fun a b => a.key < b.key) s)
    (hb : ∀ x ∈ s, x.key < 2 ^ 31) :
    ∃ l, s = l ++ walkLevel k lvl s ∧ ∀ x ∈ l, x.key < k := by
  rw [walkLevel]
  split
  · exact ⟨[], rfl, by simp⟩
  next n r heq =>
    obtain ⟨l0, hsplit, _⟩ := nextAtLevel_split heq
    split
    next hd =>
      have hmemn : n ∈ s := by rw [hsplit]; simp
      have hn31 : n.key < 2 ^ 31 := (hb n hmemn)
      have hnk : n.key < k := (cDiff32_neg_iff hn31 hk).mp hd
      have happ := List.pairwise_append.mp (hsplit ▸ hs)
      have hr : List.Pairwise (fun a b => a.key < b.key) r := happ.2.1.tail
      have hb' : ∀ x ∈ r, x.key < 2 ^ 31 := by
        intro x hx
        exact hb x (by rw [hsplit]; simp [hx])
      obtain ⟨l1, h1, hlt1⟩ := walkLevel_split hk lvl r hr hb'
      refine ⟨l0 ++ n :: l1, ?_, ?_⟩
      · conv_lhs => rw [hsplit, h1]
        simp
      · intro x hx
        rcases List.mem_append.mp hx with hx0 | hx1
        · have := happ.2.2 x hx0 n (List.mem_cons_self n r)
          omega
        · rcases List.mem_cons.mp hx1 with rfl | hx2
          · exact hnk
          · exact hlt1 x hx2
    next hd => exact ⟨[], rfl, by simp⟩
termination_by s.length
decreasing_by
  simp_wf
  exact nextAtLevel_length (by assumption)

/-- At level 0 the walk is a plain `dropWhile` along the bottom chain. -/
theorem walkLevel_zero (k : Nat) :
    ∀ s : List SNode, walkLevel k 0 s = dropLt k s
  | [] => by rw [walkLevel]; simp [nextAtLevel, dropLt, List.dropWhile]
  | n :: rest => by
    rw [walkLevel]
    have h0 : nextAtLevel 0 (n :: rest) = some (n, rest) := by
      rw [nextAtLevel, if_pos (Nat.zero_le _)]
    split
    next hnone => rw [h0] at hnone; cases hnone
    next n1 r1 heq1 =>
      rw [h0] at heq1
      injection heq1 with heq1'
      injection heq1' with he1 he2
      subst he1; subst he2
      by_cases hd : cDiff32 n.key k < 0
      · simp [hd, dropLt, List.dropWhile_cons, belowKey, walkLevel_zero k rest]
      · simp [hd, dropLt, List.dropWhile_cons, belowKey]

/-- Dropping an all-satisfying prefix does not change a `dropWhile`. -/
theorem dropWhile_append_all {α : Type} (p : α → Bool) :
    ∀ l t : List α, (∀ x ∈ l, p x = true) →
      (l ++ t).dropWhile p = t.dropWhile p
  | [], t => by intro _; rfl
  | a :: l, t => by
    intro hall
    have ha : p a = true := hall a (List.mem_cons_self a l)
    simp only [List.cons_append, List.dropWhile_cons, ha, if_true]
    exact dropWhile_append_all p l t (fun x hx => hall x (List.mem_cons_of_mem a hx))

/-- The full descent of `find_preds` on a sorted skiplist lands on the
first node whose key is not below the search key, regardless of the
starting level. -/
theorem slFindFrom_eq {k : Nat} (hk : k < 2 ^ 31) :
    ∀ (lvl : Nat) (s : List SNode),
      List.Pairwise (fun a b => a.key < b.key) s →
      (∀ x ∈ s, x.key < 2 ^ 31) →
      slFindFrom k lvl s = dropLt k s
  | 0, s => by
    intro _ _
    exact walkLevel_zero k s
  | lvl + 1, s => by
    intro hs hb
    obtain ⟨l, hsplit, hlt⟩ := walkLevel_split hk (lvl + 1) s hs hb
    have hsub : walkLevel k (lvl + 1) s <:+ s := ⟨l, hsplit.symm⟩
    have hs' : List.Pairwise (fun a b => a.key < b.key) (walkLevel k (lvl + 1) s) :=
      hs.sublist hsub.sublist
    have hb' : ∀ x ∈ walkLevel k (lvl + 1) s, x.key < 2 ^ 31 :=
      fun x hx => hb x (hsub.sublist.mem hx)
    have ih := slFindFrom_eq hk lvl (walkLevel k (lvl + 1) s) hs' hb'
    rw [slFindFrom, ih]
    have hpred : ∀ x ∈ l, belowKey k x = true := by
      intro x hx
      have hx31 : x.key < 2 ^ 31 := hb x (by rw [hsplit]; simp [hx])
      simp [belowKey, cDiff32_neg_iff hx31 hk, hlt x hx]
    unfold dropLt
    conv_rhs => rw [hsplit]
    rw [dropWhile_append_all (belowKey k) l _ hpred]

/-- `slFind` on a well-formed skiplist is `dropLt`, for every requested
level count. -/
theorem slFind_eq {k : Nat} (hk : k < 2 ^ 31) (sl : List SNode) (h : SlWF sl)
    (n : Int) : slFind sl k n = dropLt k sl :=
  slFindFrom_eq hk (findStartLevel sl n) sl h.1 (fun x hx => (h.2 x hx).1)

theorem take_length_sub_dropWhile {α : Type} (p : α → Bool) (s : List α) :
    s.take (s.length - (s.dropWhile p).length) = s.takeWhile p := by
  have hlen : s.length - (s.dropWhile p).length = (s.takeWhile p).length := by
    have h1 : (s.takeWhile p ++ s.dropWhile p).length = s.length := by
      rw [List.takeWhile_append_dropWhile]
    rw [List.length_append] at h1
    omega
  rw [hlen]
  have h2 : List.take (s.takeWhile p).length (s.takeWhile p ++ s.dropWhile p)
      = s.takeWhile p := List.take_left _ _
  rw [List.takeWhile_append_dropWhile] at h2
  exact h2

/-- The state `sl_cas` produces on a successful insert. -/
def insertSl (k v lvl : Nat) (sl : List SNode) : List SNode :=
  sl.takeWhile (belowKey k) ++ ⟨k, v, lvl⟩ :: sl.dropWhile (belowKey k)

theorem belowKey_true_iff {k : Nat} (hk : k < 2 ^ 31) {n : SNode}
    (hn : n.key < 2 ^ 31) : belowKey k n = true ↔ n.key < k := by
  simp [belowKey, cDiff32_neg_iff hn hk]

/-- On a sorted skiplist containing a node with key `k`, the search
suffix starts at that node. -/
theorem dropLt_present {k : Nat} (hk : k < 2 ^ 31) :
    ∀ {sl : List SNode}, SlWF sl →
      ∀ {m : SNode}, m ∈ sl → m.key = k → ∃ rest, dropLt k sl = m :: rest
  | [] => by intro _ m hm; simp at hm
  | n :: rest => by
    intro h m hm hkey
    have hn31 : n.key < 2 ^ 31 := (h.2 n (List.mem_cons_self n rest)).1
    rcases List.mem_cons.mp hm with rfl | hm'
    · have hfalse : belowKey k m = false := by
        rw [Bool.eq_false_iff, Ne, belowKey_true_iff hk hn31]
        omega
      exact ⟨rest, by simp [dropLt, List.dropWhile_cons, hfalse]⟩
    · have hlt : n.key < m.key := (List.pairwise_cons.mp h.1).1 m hm'
      have htrue : belowKey k n = true := by
        rw [belowKey_true_iff hk hn31]
        omega
      obtain ⟨r, hr⟩ := dropLt_present hk ⟨h.1.tail,
        fun x hx => h.2 x (List.mem_cons_of_mem n hx)⟩ hm' hkey
      exact ⟨r, by simp [dropLt, List.dropWhile_cons, htrue]; exact hr⟩

/-- Every node of the search suffix of a sorted skiplist not containing
`k` has a key strictly above `k`. -/
theorem dropLt_absent_gt {k : Nat} (hk : k < 2 ^ 31) :
    ∀ {sl : List SNode}, SlWF sl → (∀ n ∈ sl, n.key ≠ k) →
      ∀ x ∈ dropLt k sl, k < x.key
  | [] => by intro _ _ x hx; simp [dropLt] at hx
  | n :: rest => by
    intro h habs x hx
    have hn31 : n.key < 2 ^ 31 := (h.2 n (List.mem_cons_self n rest)).1
    have hne : n.key ≠ k := habs n (List.mem_cons_self n rest)
    rw [dropLt, List.dropWhile_cons] at hx
    cases hb : belowKey k n with
    | true =>
      rw [hb] at hx
      simp only [if_pos] at hx
      exact dropLt_absent_gt hk
        ⟨h.1.tail, fun y hy => h.2 y (List.mem_cons_of_mem n hy)⟩
        (fun y hy => habs y (List.mem_cons_of_mem n hy)) x hx
    | false =>
      rw [hb] at hx
      simp only [Bool.false_eq_true, if_false] at hx
      have hnlt : ¬ n.key < k := by
        rw [← belowKey_true_iff hk hn31]
        simp [hb]
      rcases List.mem_cons.mp hx with rfl | hx'
      · omega
      · have : n.key < x.key := (List.pairwise_cons.mp h.1).1 x hx'
        omega

theorem mem_takeWhile_pred {α : Type} (p : α → Bool) :
    ∀ {l : List α} {x : α}, x ∈ l.takeWhile p → p x = true
  | [], x => by simp
  | a :: l, x => by
    intro hx
    rw [List.takeWhile_cons] at hx
    cases hp : p a with
    | true =>
      rw [hp] at hx
      simp only [if_pos] at hx
      rcases List.mem_cons.mp hx with rfl | hx'
      · exact hp
      · exact mem_takeWhile_pred p hx'
    | false =>
      rw [hp] at hx
      simp at hx

/-- An insert at the search position preserves well-formedness. -/
theorem insertSl_wf {k v lvl : Nat} (hk : k < 2 ^ 31) (hv : 0 < v)
    {sl : List SNode} (h : SlWF sl) (habs : ∀ n ∈ sl, n.key ≠ k) :
    SlWF (insertSl k v lvl sl) := by
  have hAB : sl.takeWhile (belowKey k) ++ sl.dropWhile (belowKey k) = sl :=
    List.takeWhile_append_dropWhile _ _
  have hsubA : List.Sublist (sl.takeWhile (belowKey k)) sl := by
    conv_rhs => rw [← hAB]
    exact List.sublist_append_left _ _
  have hsubB : List.Sublist (sl.dropWhile (belowKey k)) sl := by
    conv_rhs => rw [← hAB]
    exact List.sublist_append_right _ _
  have hAkey : ∀ x ∈ sl.takeWhile (belowKey k), x.key < k := by
    intro x hx
    have hx31 : x.key < 2 ^ 31 := (h.2 x (hsubA.mem hx)).1
    exact (belowKey_true_iff hk hx31).mp (mem_takeWhile_pred _ hx)
  have hBkey : ∀ x ∈ sl.dropWhile (belowKey k), k < x.key :=
    dropLt_absent_gt hk h habs
  constructor
  · rw [insertSl, List.pairwise_append]
    refine ⟨h.1.sublist hsubA, ?_, ?_⟩
    · rw [List.pairwise_cons]
      exact ⟨fun b hb => hBkey b hb, h.1.sublist hsubB⟩
    · intro a ha b hb
      rcases List.mem_cons.mp hb with rfl | hb'
      · exact hAkey a ha
      · have hcross := (List.pairwise_append.mp (hAB ▸ h.1)).2.2
        exact hcross a ha b hb'
  · intro n hn
    rw [insertSl] at hn
    rcases List.mem_append.mp hn with hA | hB
    · exact h.2 n (hsubA.mem hA)
    · rcases List.mem_cons.mp hB with rfl | hB'
      · exact ⟨hk, hv⟩
      · exact h.2 n (hsubB.mem hB')

theorem dne_exp_not_fail :
    ¬ ((0 < CAS_EXPECT_DOES_NOT_EXIST ∧ CAS_EXPECT_DOES_NOT_EXIST < TAG1) ∨
      CAS_EXPECT_DOES_NOT_EXIST = CAS_EXPECT_EXISTS) := by
  decide

/-- `belowKey` fails on the key itself. -/
theorem belowKey_self (k : Nat) (v lvl : Nat) (hk : k < 2 ^ 31) :
    belowKey k ⟨k, v, lvl⟩ = false := by
  rw [Bool.eq_false_iff, Ne, belowKey_true_iff hk hk]
  show ¬ k < k
  omega

/-- On a well-formed skiplist not containing `k`, `sl_cas` with
expectation `DOES_NOT_EXIST` succeeds, returns `ABSENT` and links the
new tower at the ordered bottom position. -/
theorem sl_cas_insert {k : Nat} (v lvl : Nat) (hk : k < 2 ^ 31)
    {sl : List SNode} (h : SlWF sl) (habs : ∀ n ∈ sl, n.key ≠ k) :
    sl_cas sl k CAS_EXPECT_DOES_NOT_EXIST v lvl
      = some (DOES_NOT_EXIST, insertSl k v lvl sl) := by
  unfold sl_cas
  rw [slFind_eq hk sl h _]
  cases hB : dropLt k sl with
  | nil =>
    have hA : sl.takeWhile (belowKey k) = sl := by
      have hAB : sl.takeWhile (belowKey k) ++ sl.dropWhile (belowKey k) = sl :=
        List.takeWhile_append_dropWhile _ _
      rw [show sl.dropWhile (belowKey k) = dropLt k sl from rfl, hB] at hAB
      simpa using hAB
    simp only [dne_exp_not_fail, if_false]
    rw [insertSl, hA, show sl.dropWhile (belowKey k) = dropLt k sl from rfl, hB]
  | cons m rest =>
    have hsubB : List.Sublist (dropLt k sl) sl := by
      conv_rhs => rw [← List.takeWhile_append_dropWhile (p := belowKey k) (l := sl)]
      exact List.sublist_append_right _ _
    have hmem : m ∈ sl := hsubB.mem (hB ▸ List.mem_cons_self m rest)
    have hm31 : m.key < 2 ^ 31 := (h.2 m hmem).1
    have hmne : m.key ≠ k := habs m hmem
    have hd : ¬ cDiff32 m.key k = 0 := by
      rw [cDiff32_zero_iff hm31 hk]
      omega
    simp only [hd, if_false, dne_exp_not_fail]
    rw [show sl.length - (m :: rest).length
        = sl.length - (sl.dropWhile (belowKey k)).length by
      rw [show sl.dropWhile (belowKey k) = dropLt k sl from rfl, hB]]
    rw [take_length_sub_dropWhile]
    rw [insertSl, show sl.dropWhile (belowKey k) = dropLt k sl from rfl, hB]

/-- Looking up the freshly inserted key in the skiplist returns the
inserted value. -/
theorem sl_lookup_insert {k : Nat} (v lvl : Nat) (hk : k < 2 ^ 31) (hv : 0 < v)
    {sl : List SNode} (h : SlWF sl) (habs : ∀ n ∈ sl, n.key ≠ k) :
    sl_lookup (insertSl k v lvl sl) k = v := by
  have hwf' : SlWF (insertSl k v lvl sl) := insertSl_wf hk hv h habs
  have hAkey : ∀ x ∈ sl.takeWhile (belowKey k), belowKey k x = true := by
    intro x hx
    exact mem_takeWhile_pred _ hx
  have hdl : dropLt k (insertSl k v lvl sl)
      = ⟨k, v, lvl⟩ :: sl.dropWhile (belowKey k) := by
    rw [insertSl, dropLt, dropWhile_append_all _ _ _ hAkey,
      List.dropWhile_cons, belowKey_self k v lvl hk]
    simp
  unfold sl_lookup
  rw [slFind_eq hk _ hwf' 0, hdl]
  have hzero : cDiff32 (⟨k, v, lvl⟩ : SNode).key k = 0 := by
    show cDiff32 k k = 0
    rw [cDiff32_zero_iff hk hk]
  simp only [hzero, if_pos]
  simp [DOES_NOT_EXIST]
  omega

/-- Removing the freshly inserted key returns the inserted value and
restores the original skiplist. -/
theorem sl_remove_insert {k : Nat} (v lvl : Nat) (hk : k < 2 ^ 31) (hv : 0 < v)
    {sl : List SNode} (h : SlWF sl) (habs : ∀ n ∈ sl, n.key ≠ k) :
    sl_remove (insertSl k v lvl sl) k = (v, sl) := by
  have hwf' : SlWF (insertSl k v lvl sl) := insertSl_wf hk hv h habs
  have hAkey : ∀ x ∈ sl.takeWhile (belowKey k), belowKey k x = true := by
    intro x hx
    exact mem_takeWhile_pred _ hx
  have hdl : dropLt k (insertSl k v lvl sl)
      = ⟨k, v, lvl⟩ :: sl.dropWhile (belowKey k) := by
    rw [insertSl, dropLt, dropWhile_append_all _ _ _ hAkey,
      List.dropWhile_cons, belowKey_self k v lvl hk]
    simp
  unfold sl_remove
  rw [slFind_eq hk _ hwf' _, hdl]
  have hzero : cDiff32 (⟨k, v, lvl⟩ : SNode).key k = 0 := by
    show cDiff32 k k = 0
    rw [cDiff32_zero_iff hk hk]
  simp only [hzero, if_pos]
  have hlen : (insertSl k v lvl sl).length -
      (⟨k, v, lvl⟩ :: sl.dropWhile (belowKey k)).length
      = (sl.takeWhile (belowKey k)).length := by
    rw [insertSl]
    simp
  rw [hlen, insertSl]
  have htake : (sl.takeWhile (belowKey k) ++ ⟨k, v, lvl⟩ :: sl.dropWhile (belowKey k)).take
      (sl.takeWhile (belowKey k)).length = sl.takeWhile (belowKey k) :=
    List.take_left _ _
  rw [htake, List.takeWhile_append_dropWhile]

/-- Looking up an absent key in a well-formed skiplist returns `ABSENT`. -/
theorem sl_lookup_absent {k : Nat} (hk : k < 2 ^ 31) {sl : List SNode}
    (h : SlWF sl) (habs : ∀ n ∈ sl, n.key ≠ k) :
    sl_lookup sl k = DOES_NOT_EXIST := by
  unfold sl_lookup
  rw [slFind_eq hk sl h 0]
  cases hB : dropLt k sl with
  | nil => rfl
  | cons m rest =>
    have hsubB : List.Sublist (dropLt k sl) sl := by
      conv_rhs => rw [← List.takeWhile_append_dropWhile (p := belowKey k) (l := sl)]
      exact List.sublist_append_right _ _
    have hmem : m ∈ sl := hsubB.mem (hB ▸ List.mem_cons_self m rest)
    have hm31 : m.key < 2 ^ 31 := (h.2 m hmem).1
    have hd : ¬ cDiff32 m.key k = 0 := by
      rw [cDiff32_zero_iff hm31 hk]
      exact habs m hmem
    simp [hd]

/-- On a well-formed skiplist not containing `k`, a `sl_cas` whose
expectation demands an existing entry fails, returns `ABSENT`, and
leaves the skiplist unchanged. -/
theorem sl_cas_fail_absent {k e : Nat} (v lvl : Nat) (hk : k < 2 ^ 31)
    (he : (0 < e ∧ e < TAG1) ∨ e = CAS_EXPECT_EXISTS)
    {sl : List SNode} (h : SlWF sl) (habs : ∀ n ∈ sl, n.key ≠ k) :
    sl_cas sl k e v lvl = some (DOES_NOT_EXIST, sl) := by
  unfold sl_cas
  rw [slFind_eq hk sl h _]
  cases hB : dropLt k sl with
  | nil => simp only [if_pos he]
  | cons m rest =>
    have hsubB : List.Sublist (dropLt k sl) sl := by
      conv_rhs => rw [← List.takeWhile_append_dropWhile (p := belowKey k) (l := sl)]
      exact List.sublist_append_right _ _
    have hmem : m ∈ sl := hsubB.mem (hB ▸ List.mem_cons_self m rest)
    have hm31 : m.key < 2 ^ 31 := (h.2 m hmem).1
    have hd : ¬ cDiff32 m.key k = 0 := by
      rw [cDiff32_zero_iff hm31 hk]
      exact habs m hmem
    simp only [hd, if_false, if_pos he]

/-- On a well-formed skiplist storing `k`, a `sl_cas` with expectation
`DOES_NOT_EXIST` fails: it returns the observed value and leaves the
skiplist unchanged. -/
theorem sl_cas_dne_present {k : Nat} (v lvl : Nat) (hk : k < 2 ^ 31)
    {sl : List SNode} (h : SlWF sl) {m : SNode} (hm : m ∈ sl) (hkey : m.key = k) :
    sl_cas sl k CAS_EXPECT_DOES_NOT_EXIST v lvl = some (m.val, sl) := by
  unfold sl_cas
  rw [slFind_eq hk sl h _]
  obtain ⟨rest, hB⟩ := dropLt_present hk h hm hkey
  rw [hB]
  have hm31 : m.key < 2 ^ 31 := (h.2 m hm).1
  have hd : cDiff32 m.key k = 0 := by
    rw [cDiff32_zero_iff hm31 hk]
    exact hkey
  have hval : ¬ m.val = DOES_NOT_EXIST := by
    have := (h.2 m hm).2
    unfold DOES_NOT_EXIST
    omega
  simp only [hd, if_pos, hval, if_false]

/-! ## Hash table (src/map/hashtable.c)

Open-addressed table with integer keys (`key_type == NULL`, the fast
path of the source; every claim about the hash table concerns integer
keys).  A generation (`hti_t`) is a flat entry array plus its
bookkeeping fields; the `next` pointers of the C structure are
represented by the tail of a `List Hti` whose head is the generation in
question.  Single-threaded semantics: every CAS observes the preceding
read by the same thread and succeeds, so the lost-race retries
(hashtable.c:338, 386) are dead; the remaining recursions (descending
the generation chain) carry an explicit fuel argument, which only needs
to exceed the chain length. -/

def ENTRIES_PER_BUCKET : Nat := 4

def ENTRIES_PER_COPY_CHUNK : Nat := 8

def MIN_SCALE : Nat := 4

def MAX_BUCKETS_TO_PROBE : Nat := 250

/-- `(uint64_t)-1`. -/
def COPIED_VALUE : Nat := U64 - 1

/-- `STRIP_TAG(-1, TAG1)`. -/
def TOMBSTONE : Nat := TAG1 - 1

example : COPIED_VALUE = withTag1 TOMBSTONE := by decide

structure Entry where
  key : Nat
  val : Nat
  deriving Repr, DecidableEq

structure Hti where
  table : List Entry
  scale : Nat
  maxProbe : Nat
  references : Int
  count : Int
  numEntriesCopied : Int
  copyScan : Nat
  deriving Repr, DecidableEq

/-- Read of `hti->table[i]`; the default is dead code for in-range
indices, which well-formedness guarantees. -/
def entAt (t : List Entry) (i : Nat) : Entry := t.getD i ⟨0, 0⟩

def setEntKey (t : List Entry) (i k : Nat) : List Entry :=
  t.set i { entAt t i with key := k }

def setEntVal (t : List Entry) (i v : Nat) : List Entry :=
  t.set i { entAt t i with val := v }

/-- The probe bound computed by `hti_alloc` (src/map/hashtable.c:139-142):
`⌊2^(scale-2)/ENTRIES_PER_BUCKET⌋ + 4`, capped above at
`MAX_BUCKETS_TO_PROBE`. -/
def maxProbeOf (scale : Nat) : Nat :=
  if 2 ^ (scale - 2) / ENTRIES_PER_BUCKET + 4 > MAX_BUCKETS_TO_PROBE
  then MAX_BUCKETS_TO_PROBE
  else 2 ^ (scale - 2) / ENTRIES_PER_BUCKET + 4

/-- `hti_alloc` (src/map/hashtable.c:127-151): a zeroed table of
`2^scale` entries. -/
def hti_alloc (scale : Nat) : Hti :=
  ⟨List.replicate (2 ^ scale) ⟨0, 0⟩, scale, maxProbeOf scale, 0, 0, 0, 0⟩

/-- `get_next_ndx` (src/map/hashtable.c:63-67): bucket stride from the
high bits of the 32-bit hash, forced nonzero, masked to the table. -/
def get_next_ndx (oldNdx keyHash scale : Nat) : Nat :=
  let incr0 := (keyHash % 2 ^ 32) / 2 ^ (32 - scale)
  let incr := if incr0 = 0 then 1 else incr0
  (oldNdx + incr) % 2 ^ scale

/-- The entry index probed `j`-th within the cache-line bucket of `ndx`
(src/map/hashtable.c:86-90). -/
def bucketIdx (ndx j : Nat) : Nat :=
  (ndx / ENTRIES_PER_BUCKET) * ENTRIES_PER_BUCKET + (ndx + j) % ENTRIES_PER_BUCKET

def bucketIdxList (ndx : Nat) : List Nat :=
  (List.range ENTRIES_PER_BUCKET).map (bucketIdx ndx)

/-- One bucket scan of `hti_lookup`: stop at the first empty slot
(`is_empty` result true) or integer-key match. -/
def scanIdxs (t : List Entry) (k : Nat) : List Nat → Option (Nat × Bool)
  | [] => none
  | i :: rest =>
    if (entAt t i).key = DOES_NOT_EXIST then some (i, true)
    else if (entAt t i).key = k then some (i, false)
    else scanIdxs t k rest

inductive LookupRes where
  | noRoom
  | found (idx : Nat) (isEmpty : Bool)
  deriving Repr, DecidableEq

/-- The probe loop of `hti_lookup` (src/map/hashtable.c:77-124) with an
explicit count of buckets examined (second component). -/
def hti_lookup_go (t : List Entry) (k kh scale : Nat) : Nat → Nat → LookupRes × Nat
  | 0, _ => (.noRoom, 0)
  | fuel + 1, ndx =>
    match scanIdxs t k (bucketIdxList ndx) with
    | some (i, emp) => (.found i emp, 1)
    | none =>
      let r := hti_lookup_go t k kh scale fuel (get_next_ndx ndx kh scale)
      (r.1, r.2 + 1)

def hti_lookup (g : Hti) (k kh : Nat) : LookupRes × Nat :=
  hti_lookup_go g.table k kh g.scale g.maxProbe (kh % 2 ^ g.scale)

/-- The occupancy heuristic of `hti_start_copy`
(src/map/hashtable.c:160-163): `new_scale += (count > (1 << (new_scale-2)))`,
applied twice. -/
def newScaleOf (scale : Nat) (count : Int) : Nat :=
  let ns1 := scale + (if count > 2 ^ (scale - 2) then 1 else 0)
  ns1 + (if count > 2 ^ (ns1 - 2) then 1 else 0)

/-- `hti_start_copy` (src/map/hashtable.c:156-175): allocate the
successor and CAS it into `next`; a loser frees its allocation and the
already-installed successor is kept.  `totalCount` is `ht_count` of the
whole map at the call.  The result is the successor list of the
generation. -/
def hti_start_copy (totalCount : Int) (g : Hti) (rest : List Hti) : List Hti :=
  match rest with
  | [] => [hti_alloc (newScaleOf g.scale totalCount)]
  | old :: r => old :: r

/-- Modelled from the spec: `murmur.h` is not under `src/`.  All claims
depend only on the hash being a deterministic pure function of the key
(and the theorems below quantify over the hash value wherever
possible), so a fixed multiplicative hash stands in for the murmur
mixing. -/
def murmur32_8b (k : Nat) : Nat := k * 2654435761 % 2 ^ 32

/-- `hti_copy_entry` (src/map/hashtable.c:181-283), single-threaded:
migrate the entry at index `i` of `src` into the successor chain
`rest`.  Returns (accounted-a-copy?, updated source, updated chain).
The lost-race retries (key CAS, line 255) are dead single-threaded; the
descents into deeper generations consume `fuel`. -/
def hti_copy_entry (totalCount : Int) :
    Nat → Hti → Nat → Nat → List Hti → Bool × Hti × List Hti
  | 0, src, _, _, rest => (false, src, rest)
  | fuel + 1, src, i, kh, rest =>
    let v0 := (entAt src.table i).val
    if v0 = COPIED_VALUE then (false, src, rest)
    else if v0 = DOES_NOT_EXIST then
      -- kill the empty entry
      (true, { src with table := setEntVal src.table i COPIED_VALUE }, rest)
    else
      -- fetch-or TAG1; `v0` is the swapped-out old value
      let src1 := { src with table := setEntVal src.table i (withTag1 v0) }
      if v0 = TOMBSTONE then
        -- tagging a tombstone produced COPIED_VALUE; nothing to migrate
        (true, src1, rest)
      else
        let kh1 := if kh = 0 then murmur32_8b (entAt src.table i).key else kh
        match rest with
        | [] => (false, src1, [])  -- ht2 == NULL: unreachable, the caller guarantees a successor
        | g2 :: rest2 =>
          match (hti_lookup g2 (entAt src1.table i).key kh1).1 with
          | .noRoom =>
            let rest2' := if rest2.isEmpty then hti_start_copy totalCount g2 rest2 else rest2
            let r := hti_copy_entry totalCount fuel src1 i kh1 rest2'
            (r.1, r.2.1, g2 :: r.2.2)
          | .found j emp =>
            let g2a := if emp then { g2 with table := setEntKey g2.table j (entAt src1.table i).key }
                       else g2
            let vstrip := stripTag1 (entAt src1.table i).val
            let oldv2 := (entAt g2a.table j).val
            if oldv2 = COPIED_VALUE then
              -- nested copy killed the destination: move to its successor
              let r := hti_copy_entry totalCount fuel src1 i kh1 rest2
              (r.1, r.2.1, g2a :: r.2.2)
            else
              let src2 := { src1 with table := setEntVal src1.table i COPIED_VALUE }
              if oldv2 = DOES_NOT_EXIST then
                let g2b0 := { g2a with table := setEntVal g2a.table j vstrip }
                let g2b := { g2b0 with count := g2b0.count + 1 }
                let src3 := { src2 with count := src2.count - 1 }
                (true, src3, g2b :: rest2)
              else
                (false, src2, g2a :: rest2)

/-- `hti_cas` (src/map/hashtable.c:299-401), single-threaded, on the
generation `g` whose successors are `rest`.  Returns the previous value
(`COPIED_VALUE` directs the caller to the next generation) and the
updated generation and successors. -/
def hti_cas (totalCount : Int) (fuel : Nat) (g : Hti) (rest : List Hti)
    (k kh exp newv : Nat) : Nat × Hti × List Hti :=
  match (hti_lookup g k kh).1 with
  | .noRoom =>
    let rest' := if rest.isEmpty then hti_start_copy totalCount g rest else rest
    (COPIED_VALUE, g, rest')
  | .found i emp =>
    if emp ∧ ¬ (exp = CAS_EXPECT_WHATEVER ∨ exp = CAS_EXPECT_DOES_NOT_EXIST) then
      (DOES_NOT_EXIST, g, rest)
    else if emp ∧ newv = DOES_NOT_EXIST then
      (DOES_NOT_EXIST, g, rest)
    else
      let g1 := if emp then { g with table := setEntKey g.table i k } else g
      let v := (entAt g1.table i).val
      if hasTag1 v then
        if v ≠ COPIED_VALUE then
          let r := hti_copy_entry totalCount fuel g1 i kh rest
          let g3 := if r.1 then { r.2.1 with numEntriesCopied := r.2.1.numEntriesCopied + 1 }
                    else r.2.1
          (COPIED_VALUE, g3, r.2.2)
        else (COPIED_VALUE, g1, rest)
      else
        let oldExisted := v ≠ TOMBSTONE ∧ v ≠ DOES_NOT_EXIST
        if exp ≠ CAS_EXPECT_WHATEVER ∧ exp ≠ v ∧
            exp ≠ (if oldExisted then CAS_EXPECT_EXISTS else CAS_EXPECT_DOES_NOT_EXIST) then
          (v, g1, rest)
        else if (newv = DOES_NOT_EXIST ∧ ¬ oldExisted) ∨ v = newv then
          (v, g1, rest)
        else
          let newStored := if newv = DOES_NOT_EXIST then TOMBSTONE else newv
          let g2 := { g1 with table := setEntVal g1.table i newStored }
          let g3 :=
            if oldExisted ∧ newv = DOES_NOT_EXIST then { g2 with count := g2.count - 1 }
            else if ¬ oldExisted ∧ newv ≠ DOES_NOT_EXIST then { g2 with count := g2.count + 1 }
            else g2
          (v, g3, rest)

/-- `hti_get` (src/map/hashtable.c:404-433), single-threaded, over a
generation chain.  Helping a pending per-entry copy mutates the chain,
so the updated chain is returned alongside the value. -/
def hti_get (totalCount : Int) : Nat → List Hti → Nat → Nat → Nat × List Hti
  | _, [], _, _ => (DOES_NOT_EXIST, [])
  | 0, c, _, _ => (DOES_NOT_EXIST, c)
  | fuel + 1, g :: rest, k, kh =>
    match (hti_lookup g k kh).1 with
    | .noRoom =>
      if rest.isEmpty then (DOES_NOT_EXIST, g :: rest)
      else
        let r := hti_get totalCount fuel rest k kh
        (r.1, g :: r.2)
    | .found i emp =>
      if emp then (DOES_NOT_EXIST, g :: rest)
      else
        let v := (entAt g.table i).val
        if hasTag1 v then
          if v ≠ COPIED_VALUE then
            let rc := hti_copy_entry totalCount fuel g i kh rest
            let g2 := if rc.1 then { rc.2.1 with numEntriesCopied := rc.2.1.numEntriesCopied + 1 }
                      else rc.2.1
            let r := hti_get totalCount fuel rc.2.2 k kh
            (r.1, g2 :: r.2)
          else
            let r := hti_get totalCount fuel rest k kh
            (r.1, g :: r.2)
        else (if v = TOMBSTONE then DOES_NOT_EXIST else v, g :: rest)

/-- The generation-descending loop of `ht_cas`
(src/map/hashtable.c:512-517). -/
def casLoop (totalCount : Int) : Nat → List Hti → Nat → Nat → Nat → Nat → Nat × List Hti
  | _, [], _, _, _, _ => (DOES_NOT_EXIST, [])
  | 0, c, _, _, _, _ => (DOES_NOT_EXIST, c)
  | fuel + 1, g :: rest, k, kh, exp, newv =>
    let r := hti_cas totalCount fuel g rest k kh exp newv
    if r.1 = COPIED_VALUE then
      let r2 := casLoop totalCount fuel r.2.2 k kh exp newv
      (r2.1, r.2.1 :: r2.2)
    else (r.1, r.2.1 :: r.2.2)

/-- `ht_count` (src/map/hashtable.c:539-547). -/
def ht_count (chain : List Hti) : Int := (chain.map Hti.count).sum

/-- `ht_remove`'s own generation loop (src/map/hashtable.c:524-536):
`hti_cas` with `CAS_EXPECT_WHATEVER` and deletion value, following
`next` on `COPIED_VALUE`, with the tombstone translated to `ABSENT`. -/
def ht_remove (totalCount : Int) : Nat → List Hti → Nat → Nat → Nat × List Hti
  | _, [], _, _ => (DOES_NOT_EXIST, [])
  | 0, c, _, _ => (DOES_NOT_EXIST, c)
  | fuel + 1, g :: rest, k, kh =>
    let r := hti_cas totalCount fuel g rest k kh CAS_EXPECT_WHATEVER DOES_NOT_EXIST
    if r.1 ≠ COPIED_VALUE then
      ((if r.1 = TOMBSTONE then DOES_NOT_EXIST else r.1), r.2.1 :: r.2.2)
    else
      let r2 := ht_remove totalCount fuel r.2.2 k kh
      (r2.1, r.2.1 :: r2.2)

/-- The reference definition for the refinement claim, following the
spec's words: "Remove is `CAS(expected=WHATEVER, new=TOMBSTONE)`; the
returned previous value is the removed value or `ABSENT`" — `ABSENT`
when the key was not present or held a `TOMBSTONE`.  It runs the cas
operation's generation loop specialized to expectation
`CAS_EXPECT_WHATEVER` and the deletion value (which stores a
`TOMBSTONE`), then translates the previous value per the spec. -/
def htRemoveSpec (totalCount : Int) (fuel : Nat) (chain : List Hti) (k kh : Nat) :
    Nat × List Hti :=
  let r := casLoop totalCount fuel chain k kh CAS_EXPECT_WHATEVER DOES_NOT_EXIST
  ((if r.1 = DOES_NOT_EXIST ∨ r.1 = TOMBSTONE then DOES_NOT_EXIST else r.1), r.2)

/-- The sequential copy loop of `hti_help_copy`
(src/map/hashtable.c:471-475): migrate `limit` consecutive entries
starting at `idx`, each with the zero (recompute) key hash, counting the
accounted copies. -/
def copyChunk (totalCount : Int) (fuel : Nat) :
    Nat → Nat → Hti → List Hti → Hti × List Hti × Int
  | _, 0, g, rest => (g, rest, 0)
  | idx, j + 1, g, rest =>
    let r := hti_copy_entry totalCount fuel g idx 0 rest
    let r2 := copyChunk totalCount fuel (idx + 1) j r.2.1 r.2.2
    (r2.1, r2.2.1, r2.2.2 + (if r.1 then 1 else 0))

/-- `hti_help_copy` (src/map/hashtable.c:442-482), embedded literally:
note the source guards the copying body with
`total_copied == (1 << hti->scale)` (hashtable.c:450), so the body only
runs once the copied counter already equals the table size. -/
def hti_help_copy (totalCount : Int) (fuel : Nat) (g : Hti) (rest : List Hti) :
    Bool × Hti × List Hti :=
  if g.numEntriesCopied = ((2 ^ g.scale : Nat) : Int) then
    if g.copyScan < 2 ^ (g.scale + 1) then
      let g1 := { g with copyScan := g.copyScan + ENTRIES_PER_COPY_CHUNK }
      let r := copyChunk totalCount fuel (g.copyScan % 2 ^ g.scale) ENTRIES_PER_COPY_CHUNK g1 rest
      let g2 := if r.2.2 ≠ 0 then { r.1 with numEntriesCopied := r.1.numEntriesCopied + r.2.2 }
                else r.1
      let total2 := if r.2.2 ≠ 0 then g2.numEntriesCopied else g.numEntriesCopied
      (decide (total2 = ((2 ^ g.scale : Nat) : Int)), g2, r.2.1)
    else
      let r := copyChunk totalCount fuel 0 (2 ^ g.scale) g rest
      let g2 := if r.2.2 ≠ 0 then { r.1 with numEntriesCopied := r.1.numEntriesCopied + r.2.2 }
                else r.1
      let total2 := if r.2.2 ≠ 0 then g2.numEntriesCopied else g.numEntriesCopied
      (decide (total2 = ((2 ^ g.scale : Nat) : Int)), g2, r.2.1)
  else (false, g, rest)

/-- `ht_cas` (src/map/hashtable.c:485-520): help any ongoing copy,
retire a fully-copied unreferenced head generation, run the cas loop
down the generations, and translate a tombstone to `ABSENT`.
`ht_count` is evaluated at operation start; per-entry copies preserve
the total, so this is also its value at any nested `hti_start_copy`. -/
def ht_cas (fuel : Nat) (chain : List Hti) (k kh exp newv : Nat) : Nat × List Hti :=
  match chain with
  | [] => (DOES_NOT_EXIST, [])
  | g :: rest =>
    let totalCount := ht_count (g :: rest)
    if rest.isEmpty then
      let r := casLoop totalCount fuel (g :: rest) k kh exp newv
      ((if r.1 = TOMBSTONE then DOES_NOT_EXIST else r.1), r.2)
    else
      let h := hti_help_copy totalCount fuel g rest
      let disposed := h.1 && decide (h.2.1.references = 0)
      let r := casLoop totalCount fuel (h.2.1 :: h.2.2) k kh exp newv
      let chain2 := if disposed then r.2.tail else r.2
      ((if r.1 = TOMBSTONE then DOES_NOT_EXIST else r.1), chain2)

/-- `ht_get` (src/map/hashtable.c:436-439). -/
def ht_get (fuel : Nat) (chain : List Hti) (k : Nat) : Nat × List Hti :=
  hti_get (ht_count chain) fuel chain k (murmur32_8b k)

/-- `ht_iter_start` (src/map/hashtable.c:591-614) on a quiescent
single-generation table: the help-copy wait loop is skipped because
`next` is null, and the reference bump succeeds unless the generation's
reference count was claimed for retirement (-1), in which case the
single-threaded retry loop spins forever (`none`).  Returns the updated
generation and the initial cursor `idx = -1`. -/
def ht_iter_start (g : Hti) : Option (Hti × Int) :=
  if g.references = -1 then none
  else some ({ g with references := g.references + 1 }, -1)

/-- The body of `ht_iter_next` (src/map/hashtable.c:616-643) over a
total array access: the cursor is incremented once for the
end-of-table test and a second time for the entry read (the source's
double `++iter->idx`); a read outside the entry array is
`Except.error`.  `rest` is the successor chain consulted when a read
value is `COPIED_VALUE`. -/
def ht_iter_next_go (totalCount : Int) (hfuel : Nat) (g : Hti) (rest : List Hti) :
    Nat → Int → Except Unit (Option (Nat × Nat) × Int)
  | 0, _ => .error ()
  | fuel + 1, idx =>
    if idx + 1 = ((2 ^ g.scale : Nat) : Int) then .ok (none, idx + 1)
    else if idx + 2 < 0 then .error ()
    else
      match g.table.get? (idx + 2).toNat with
      | none => .error ()
      | some e =>
        if e.key = DOES_NOT_EXIST ∨ e.val = DOES_NOT_EXIST ∨ e.val = TOMBSTONE then
          ht_iter_next_go totalCount hfuel g rest fuel (idx + 2)
        else
          .ok (some (e.key,
            if e.val = COPIED_VALUE then
              (hti_get totalCount hfuel rest e.key (murmur32_8b e.key)).1
            else e.val), idx + 2)

def ht_iter_next (totalCount : Int) (hfuel : Nat) (g : Hti) (rest : List Hti) (idx : Int) :
    Except Unit (Option (Nat × Nat) × Int) :=
  ht_iter_next_go totalCount hfuel g rest (2 ^ g.scale + 1) idx

/-- `n` successive `ht_iter_next` calls from a cursor; `ok none` means
the iteration finished (and the iterator was freed). -/
def iterN (totalCount : Int) (hfuel : Nat) (g : Hti) (rest : List Hti) :
    Nat → Int → Except Unit (Option Int)
  | 0, idx => .ok (some idx)
  | n + 1, idx =>
    match ht_iter_next totalCount hfuel g rest idx with
    | .error e => .error e
    | .ok (none, _) => .ok none
    | .ok (some _, idx') => iterN totalCount hfuel g rest n idx'

/-- `ht_remove`'s loop is the `WHATEVER`/delete cas loop with the
source's tombstone translation applied to the result. -/
theorem ht_remove_as_casLoop (totalCount : Int) :
    ∀ (fuel : Nat) (chain : List Hti) (k kh : Nat),
      ht_remove totalCount fuel chain k kh
        = ((if (casLoop totalCount fuel chain k kh CAS_EXPECT_WHATEVER DOES_NOT_EXIST).1
              = TOMBSTONE
            then DOES_NOT_EXIST
            else (casLoop totalCount fuel chain k kh CAS_EXPECT_WHATEVER DOES_NOT_EXIST).1),
           (casLoop totalCount fuel chain k kh CAS_EXPECT_WHATEVER DOES_NOT_EXIST).2)
  | fuel, [], k, kh => by
    cases fuel <;> simp [ht_remove, casLoop, ite_self]
  | 0, g :: rest, k, kh => by
    simp [ht_remove, casLoop, ite_self]
  | fuel + 1, g :: rest, k, kh => by
    rw [ht_remove, casLoop]
    by_cases hc :
        (hti_cas totalCount fuel g rest k kh CAS_EXPECT_WHATEVER DOES_NOT_EXIST).1
          = COPIED_VALUE
    · rw [if_neg (not_not_intro hc), if_pos hc,
        ht_remove_as_casLoop totalCount fuel
          (hti_cas totalCount fuel g rest k kh CAS_EXPECT_WHATEVER DOES_NOT_EXIST).2.2 k kh]
    · rw [if_pos hc, if_neg hc]

/-- `ht_remove` and the `WHATEVER`-specialized cas loop agree, result
and state. -/
theorem ht_remove_eq_spec (totalCount : Int) (fuel : Nat) (chain : List Hti) (k kh : Nat) :
    ht_remove totalCount fuel chain k kh = htRemoveSpec totalCount fuel chain k kh := by
  rw [ht_remove_as_casLoop, htRemoveSpec]
  by_cases h0 :
      (casLoop totalCount fuel chain k kh CAS_EXPECT_WHATEVER DOES_NOT_EXIST).1
        = DOES_NOT_EXIST
  · simp [h0]
  · by_cases ht :
        (casLoop totalCount fuel chain k kh CAS_EXPECT_WHATEVER DOES_NOT_EXIST).1
          = TOMBSTONE
    · simp [h0, ht]
    · simp [h0, ht]

/-- The probe loop examines at most as many buckets as its fuel. -/
theorem hti_lookup_go_le (t : List Entry) (k kh scale : Nat) :
    ∀ (fuel ndx : Nat), (hti_lookup_go t k kh scale fuel ndx).2 ≤ fuel
  | 0, _ => by simp [hti_lookup_go]
  | fuel + 1, ndx => by
    rw [hti_lookup_go]
    cases h : scanIdxs t k (bucketIdxList ndx) with
    | none =>
      simp only []
      have := hti_lookup_go_le t k kh scale fuel (get_next_ndx ndx kh scale)
      omega
    | some p => simp

/-- `hti_lookup` examines at most `max_probe` buckets. -/
theorem hti_lookup_le_maxProbe (g : Hti) (k kh : Nat) :
    (hti_lookup g k kh).2 ≤ g.maxProbe :=
  hti_lookup_go_le g.table k kh g.scale g.maxProbe (kh % 2 ^ g.scale)

/-- The allocation-time probe bound is the capped formula (a minimum,
not a maximum). -/
theorem maxProbeOf_eq_min (scale : Nat) :
    maxProbeOf scale
      = min (2 ^ (scale - 2) / ENTRIES_PER_BUCKET + 4) MAX_BUCKETS_TO_PROBE := by
  unfold maxProbeOf ENTRIES_PER_BUCKET MAX_BUCKETS_TO_PROBE
  rw [Nat.min_def]
  split_ifs <;> omega

/-- The successor scale computed by `hti_start_copy` matches the
occupancy heuristic of the claim. -/
theorem newScaleOf_formula (scale : Nat) (count : Int) (h4 : 4 ≤ scale) :
    newScaleOf scale count
      = (if count > 2 ^ (scale - 1) then scale + 2
         else if count > 2 ^ (scale - 2) then scale + 1 else scale) := by
  unfold newScaleOf
  have hpow : (2 : Int) ^ (scale - 2) ≤ 2 ^ (scale - 1) :=
    pow_le_pow_right₀ (by norm_num) (by omega)
  by_cases h1 : count > (2 : Int) ^ (scale - 2)
  · simp only [h1, if_true]
    have : scale + 1 - 2 = scale - 1 := by omega
    rw [this]
    by_cases h2 : count > (2 : Int) ^ (scale - 1)
    · simp [h1, h2]
    · simp [h1, h2]
  · have h2 : ¬ count > (2 : Int) ^ (scale - 1) := by
      intro hcon
      exact h1 (lt_of_le_of_lt hpow hcon)
    simp [h1, h2]

/-! ## Iterator index bounds (ht_iter_next) -/

theorem two_pow_even (s : Nat) (hs : 1 ≤ s) : (2 ^ s : Nat) % 2 = 0 := by
  cases s with
  | zero => omega
  | succ n => simp [pow_succ, Nat.mul_mod_left]

/-- One call to `ht_iter_next` from an odd in-range cursor never reads
out of range and lands on an odd in-range cursor (or finishes). -/
theorem iter_next_go_ok (totalCount : Int) (hfuel : Nat) (g : Hti) (rest : List Hti)
    (hlen : g.table.length = 2 ^ g.scale) (hs : 1 ≤ g.scale) :
    ∀ (fuel : Nat) (idx : Int), idx % 2 = 1 → -1 ≤ idx →
      idx < ((2 ^ g.scale : Nat) : Int) →
      ((2 ^ g.scale : Nat) : Int) ≤ idx + 2 * fuel →
      ∃ out, ht_iter_next_go totalCount hfuel g rest fuel idx = .ok out ∧
        (out.1 = none ∨ (out.2 % 2 = 1 ∧ -1 ≤ out.2 ∧ out.2 < ((2 ^ g.scale : Nat) : Int)))
  | 0, idx => by
    intro _ _ hlt hfu
    omega
  | fuel + 1, idx => by
    intro hodd hge hlt hfu
    rw [ht_iter_next_go]
    by_cases hend : idx + 1 = ((2 ^ g.scale : Nat) : Int)
    · rw [if_pos hend]
      exact ⟨(none, idx + 1), rfl, Or.inl rfl⟩
    · rw [if_neg hend]
      have heven : ((2 ^ g.scale : Nat) : Int) % 2 = 0 := by
        have := two_pow_even g.scale hs
        omega
      have h2lt : idx + 2 < ((2 ^ g.scale : Nat) : Int) := by omega
      have hpos : ¬ (idx + 2 < 0) := by omega
      rw [if_neg hpos]
      have hidx : (idx + 2).toNat < g.table.length := by
        rw [hlen]
        omega
      cases hget : g.table.get? (idx + 2).toNat with
      | none =>
        exfalso
        have := List.get?_eq_none.mp hget
        omega
      | some e =>
        dsimp only
        by_cases hskip : e.key = DOES_NOT_EXIST ∨ e.val = DOES_NOT_EXIST ∨ e.val = TOMBSTONE
        · rw [if_pos hskip]
          exact iter_next_go_ok totalCount hfuel g rest hlen hs fuel (idx + 2)
            (by omega) (by omega) (by omega) (by omega)
        · rw [if_neg hskip]
          exact ⟨_, rfl, Or.inr ⟨by omega, by omega, by omega⟩⟩

/-- Any number of `ht_iter_next` calls from an odd in-range cursor
succeeds (no out-of-range read, no fuel exhaustion). -/
theorem iterN_ok (totalCount : Int) (hfuel : Nat) (g : Hti) (rest : List Hti)
    (hlen : g.table.length = 2 ^ g.scale) (hs : 1 ≤ g.scale) :
    ∀ (n : Nat) (idx : Int), idx % 2 = 1 → -1 ≤ idx →
      idx < ((2 ^ g.scale : Nat) : Int) →
      ∃ o, iterN totalCount hfuel g rest n idx = .ok o
  | 0, idx => by
    intro _ _ _
    exact ⟨some idx, rfl⟩
  | n + 1, idx => by
    intro hodd hge hlt
    obtain ⟨out, hout, hinv⟩ := iter_next_go_ok totalCount hfuel g rest hlen hs
      (2 ^ g.scale + 1) idx hodd hge hlt (by
        have hcast : ((2 ^ g.scale + 1 : Nat) : Int) = ((2 ^ g.scale : Nat) : Int) + 1 := by
          push_cast
          ring
        rw [hcast]
        omega)
    rw [iterN, ht_iter_next, hout]
    obtain ⟨o, idx'⟩ := out
    cases o with
    | none => exact ⟨none, rfl⟩
    | some p =>
      rcases hinv with h | hinv'
      · exact absurd h (by simp)
      · exact iterN_ok totalCount hfuel g rest hlen hs n idx'
          hinv'.1 (by omega) hinv'.2.2

/-! ## Lookup stability lemmas

The round-trip and failed-expectation behavior of the hash table rests
on the probe sequence being a deterministic function of the key and
hash: updating only the entry the probe landed on leaves every earlier
probe decision unchanged. -/

theorem entAt_set_eq : ∀ (t : List Entry) (i : Nat) (e : Entry),
    i < t.length → entAt (t.set i e) i = e
  | [], i, e => by simp
  | a :: t, 0, e => by intro _; rfl
  | a :: t, i + 1, e => by
    intro h
    show entAt (a :: t.set i e) (i + 1) = e
    unfold entAt
    simp only [List.getD_cons_succ]
    exact entAt_set_eq t i e (by simpa using h)

theorem entAt_set_ne : ∀ (t : List Entry) (i j : Nat) (e : Entry),
    i ≠ j → entAt (t.set i e) j = entAt t j
  | [], i, j, e => by simp
  | a :: t, 0, 0, e => by intro h; exact absurd rfl h
  | a :: t, 0, j + 1, e => by intro _; rfl
  | a :: t, i + 1, 0, e => by intro _; rfl
  | a :: t, i + 1, j + 1, e => by
    intro h
    show entAt (a :: t.set i e) (j + 1) = entAt (a :: t) (j + 1)
    unfold entAt
    simp only [List.getD_cons_succ]
    exact entAt_set_ne t i j e (by omega)

theorem entAt_setEntVal_ne (t : List Entry) (i j v : Nat) (h : i ≠ j) :
    entAt (setEntVal t i v) j = entAt t j :=
  entAt_set_ne t i j _ h

theorem entAt_setEntVal_eq (t : List Entry) (i v : Nat) (h : i < t.length) :
    entAt (setEntVal t i v) i = { entAt t i with val := v } :=
  entAt_set_eq t i _ h

theorem entAt_setEntKey_ne (t : List Entry) (i j k : Nat) (h : i ≠ j) :
    entAt (setEntKey t i k) j = entAt t j :=
  entAt_set_ne t i j _ h

theorem entAt_setEntKey_eq (t : List Entry) (i k : Nat) (h : i < t.length) :
    entAt (setEntKey t i k) i = { entAt t i with key := k } :=
  entAt_set_eq t i _ h

theorem entAt_mem : ∀ (t : List Entry) (i : Nat), i < t.length → entAt t i ∈ t
  | [], i => by simp
  | a :: t, 0 => by intro _; exact List.mem_cons_self _ _
  | a :: t, i + 1 => by
    intro h
    show entAt (a :: t) (i + 1) ∈ a :: t
    unfold entAt
    simp only [List.getD_cons_succ]
    exact List.mem_cons_of_mem a (entAt_mem t i (by simpa using h))

/-- Soundness of a bucket scan: the hit index is a member of the probed
index list, and its entry is empty or matches the key. -/
theorem scanIdxs_sound {t : List Entry} {k : Nat} :
    ∀ {l : List Nat} {i : Nat} {emp : Bool},
      scanIdxs t k l = some (i, emp) →
        i ∈ l ∧ (if emp then (entAt t i).key = DOES_NOT_EXIST else (entAt t i).key = k)
  | [], i, emp => by simp [scanIdxs]
  | j :: l, i, emp => by
    intro h
    rw [scanIdxs] at h
    by_cases h0 : (entAt t j).key = DOES_NOT_EXIST
    · rw [if_pos h0] at h
      injection h with h'
      injection h' with h1 h2
      subst h1; subst h2
      exact ⟨List.mem_cons_self _ _, by simp [h0]⟩
    · rw [if_neg h0] at h
      by_cases hk : (entAt t j).key = k
      · rw [if_pos hk] at h
        injection h with h'
        injection h' with h1 h2
        subst h1; subst h2
        exact ⟨List.mem_cons_self _ _, by simp [hk]⟩
      · rw [if_neg hk] at h
        obtain ⟨hm, hp⟩ := scanIdxs_sound h
        exact ⟨List.mem_cons_of_mem _ hm, hp⟩

/-- Updating only the hit entry so that it now stores the key turns the
scan's hit into a key match at the same index. -/
theorem scanIdxs_update {t t' : List Entry} {k : Nat} (hk0 : ¬ k = DOES_NOT_EXIST)
    {i : Nat}
    (hne : ∀ j, j ≠ i → entAt t' j = entAt t j)
    (hi : (entAt t' i).key = k)
    (hsound : (entAt t i).key = DOES_NOT_EXIST ∨ (entAt t i).key = k) :
    ∀ {l : List Nat} {emp : Bool}, scanIdxs t k l = some (i, emp) →
      scanIdxs t' k l = some (i, false)
  | [], emp => by simp [scanIdxs]
  | j :: l, emp => by
    intro h
    by_cases hji : j = i
    · subst hji
      rw [scanIdxs, if_neg (by rw [hi]; exact hk0), if_pos hi]
    · rw [scanIdxs] at h
      rw [scanIdxs, hne j hji]
      by_cases h0 : (entAt t j).key = DOES_NOT_EXIST
      · rw [if_pos h0] at h
        injection h with h'
        injection h' with h1 _
        exact absurd h1 hji
      · rw [if_neg h0] at h ⊢
        by_cases hk2 : (entAt t j).key = k
        · rw [if_pos hk2] at h
          injection h with h'
          injection h' with h1 _
          exact absurd h1 hji
        · rw [if_neg hk2] at h ⊢
          exact scanIdxs_update hk0 hne hi hsound h

/-- A missing bucket stays missing after the update of the hit entry. -/
theorem scanIdxs_none_update {t t' : List Entry} {k : Nat}
    {i : Nat}
    (hne : ∀ j, j ≠ i → entAt t' j = entAt t j)
    (hsound : (entAt t i).key = DOES_NOT_EXIST ∨ (entAt t i).key = k) :
    ∀ {l : List Nat}, scanIdxs t k l = none → scanIdxs t' k l = none
  | [] => by simp [scanIdxs]
  | j :: l => by
    intro h
    rw [scanIdxs] at h
    by_cases hji : j = i
    · subst hji
      by_cases h0 : (entAt t j).key = DOES_NOT_EXIST
      · rw [if_pos h0] at h; cases h
      · rw [if_neg h0] at h
        by_cases hk2 : (entAt t j).key = k
        · rw [if_pos hk2] at h; cases h
        · exact absurd hsound (by simp [h0, hk2])
    · rw [scanIdxs, hne j hji]
      by_cases h0 : (entAt t j).key = DOES_NOT_EXIST
      · rw [if_pos h0] at h; cases h
      · rw [if_neg h0] at h ⊢
        by_cases hk2 : (entAt t j).key = k
        · rw [if_pos hk2] at h; cases h
        · rw [if_neg hk2] at h ⊢
          exact scanIdxs_none_update hne hsound h

/-- A scan only looks at keys: it is unchanged when no key changes. -/
theorem scanIdxs_keys_eq {t t' : List Entry} {k : Nat}
    (hkeys : ∀ j, (entAt t' j).key = (entAt t j).key) :
    ∀ l : List Nat, scanIdxs t' k l = scanIdxs t k l
  | [] => rfl
  | j :: l => by
    rw [scanIdxs, scanIdxs, hkeys j, scanIdxs_keys_eq hkeys l]

theorem lookup_go_sound {t : List Entry} {k kh s : Nat} :
    ∀ {fuel ndx i : Nat} {emp : Bool} {c : Nat},
      hti_lookup_go t k kh s fuel ndx = (.found i emp, c) →
        (if emp then (entAt t i).key = DOES_NOT_EXIST else (entAt t i).key = k)
          ∧ ∃ ndx0, i ∈ bucketIdxList ndx0
  | 0, ndx, i, emp, c => by simp [hti_lookup_go]
  | fuel + 1, ndx, i, emp, c => by
    intro h
    rw [hti_lookup_go] at h
    cases hscan : scanIdxs t k (bucketIdxList ndx) with
    | some p =>
      rw [hscan] at h
      obtain ⟨pi, pe⟩ := p
      injection h with h1 _
      injection h1 with h2 h3
      subst h2; subst h3
      obtain ⟨hm, hp⟩ := scanIdxs_sound hscan
      exact ⟨hp, ndx, hm⟩
    | none =>
      rw [hscan] at h
      simp only [] at h
      have h' : hti_lookup_go t k kh s fuel (get_next_ndx ndx kh s)
          = (.found i emp, c - 1) := by
        have := congrArg Prod.fst h
        have hc := congrArg Prod.snd h
        simp at this hc
        cases hgo : hti_lookup_go t k kh s fuel (get_next_ndx ndx kh s) with
        | mk r n =>
          rw [hgo] at this hc
          simp at this hc
          simp [this, ← hc]
      exact lookup_go_sound h'

/-- After updating the hit entry to store the key, the whole probe loop
finds the same index (now as a key match), with the same bucket count. -/
theorem lookup_go_update {t t' : List Entry} {k kh s : Nat} (hk0 : ¬ k = DOES_NOT_EXIST)
    {i : Nat}
    (hne : ∀ j, j ≠ i → entAt t' j = entAt t j)
    (hi : (entAt t' i).key = k)
    (hsound : (entAt t i).key = DOES_NOT_EXIST ∨ (entAt t i).key = k) :
    ∀ {fuel ndx : Nat} {emp : Bool} {c : Nat},
      hti_lookup_go t k kh s fuel ndx = (.found i emp, c) →
        hti_lookup_go t' k kh s fuel ndx = (.found i false, c)
  | 0, ndx, emp, c => by simp [hti_lookup_go]
  | fuel + 1, ndx, emp, c => by
    intro h
    rw [hti_lookup_go] at h ⊢
    cases hscan : scanIdxs t k (bucketIdxList ndx) with
    | some p =>
      rw [hscan] at h
      obtain ⟨pi, pe⟩ := p
      injection h with h1 h2
      injection h1 with h3 h4
      subst h3; subst h4; subst h2
      rw [scanIdxs_update hk0 hne hi hsound hscan]
    | none =>
      rw [hscan] at h
      rw [scanIdxs_none_update hne hsound hscan]
      simp only [] at h ⊢
      have hfst := congrArg Prod.fst h
      have hsnd := congrArg Prod.snd h
      simp at hfst hsnd
      cases hgo : hti_lookup_go t k kh s fuel (get_next_ndx ndx kh s) with
      | mk r n =>
        rw [hgo] at hfst hsnd
        simp at hfst hsnd
        have h' : hti_lookup_go t k kh s fuel (get_next_ndx ndx kh s)
            = (.found i emp, n) := by rw [hgo, hfst]
        rw [lookup_go_update hk0 hne hi hsound h']
        simp [hsnd]

/-- The probe loop only looks at keys. -/
theorem lookup_go_keys_eq {t t' : List Entry} {k kh s : Nat}
    (hkeys : ∀ j, (entAt t' j).key = (entAt t j).key) :
    ∀ (fuel ndx : Nat),
      hti_lookup_go t' k kh s fuel ndx = hti_lookup_go t k kh s fuel ndx
  | 0, ndx => rfl
  | fuel + 1, ndx => by
    rw [hti_lookup_go, hti_lookup_go, scanIdxs_keys_eq hkeys,
      lookup_go_keys_eq hkeys fuel (get_next_ndx ndx kh s)]

theorem get_next_ndx_lt (ndx kh s : Nat) : get_next_ndx ndx kh s < 2 ^ s := by
  unfold get_next_ndx
  exact Nat.mod_lt _ (Nat.pos_pow_of_pos s (by omega))

theorem bucketIdx_lt {ndx s : Nat} (h2 : 2 ≤ s) (hn : ndx < 2 ^ s) (j : Nat) :
    bucketIdx ndx j < 2 ^ s := by
  unfold bucketIdx ENTRIES_PER_BUCKET
  have h4 : 2 ^ s = 4 * 2 ^ (s - 2) := by
    have hs' : 2 + (s - 2) = s := by omega
    rw [← hs', pow_add]
    norm_num
  omega

/-- A found index lies inside the table (given an in-range start). -/
theorem lookup_go_found_lt {t : List Entry} {k kh s : Nat} (h2 : 2 ≤ s) :
    ∀ {fuel ndx i : Nat} {emp : Bool} {c : Nat}, ndx < 2 ^ s →
      hti_lookup_go t k kh s fuel ndx = (.found i emp, c) → i < 2 ^ s
  | 0, ndx, i, emp, c => by simp [hti_lookup_go]
  | fuel + 1, ndx, i, emp, c => by
    intro hn h
    rw [hti_lookup_go] at h
    cases hscan : scanIdxs t k (bucketIdxList ndx) with
    | some p =>
      rw [hscan] at h
      obtain ⟨pi, pe⟩ := p
      injection h with h1 _
      injection h1 with h3 _
      subst h3
      obtain ⟨hm, _⟩ := scanIdxs_sound hscan
      obtain ⟨j, _, hj⟩ := List.mem_map.mp hm
      rw [← hj]
      exact bucketIdx_lt h2 hn j
    | none =>
      rw [hscan] at h
      simp only [] at h
      have hfst := congrArg Prod.fst h
      simp at hfst
      cases hgo : hti_lookup_go t k kh s fuel (get_next_ndx ndx kh s) with
      | mk r n =>
        rw [hgo] at hfst
        simp at hfst
        exact lookup_go_found_lt h2 (get_next_ndx_lt ndx kh s) (by rw [hgo, hfst])

/-- Well-formed quiescent single-generation table state: full-size entry
array, legal scale, no copy marks on values, and empty-keyed entries
hold no value (no migration has ever run on a generation without a
successor). -/
def HtiWF (g : Hti) : Prop :=
  g.table.length = 2 ^ g.scale ∧ MIN_SCALE ≤ g.scale ∧
    ∀ e ∈ g.table, hasTag1 e.val = false ∧ (e.key = DOES_NOT_EXIST → e.val = DOES_NOT_EXIST)

instance (g : Hti) : Decidable (HtiWF g) :=
  inferInstanceAs (Decidable (g.table.length = 2 ^ g.scale ∧ MIN_SCALE ≤ g.scale ∧
    ∀ e ∈ g.table, hasTag1 e.val = false ∧ (e.key = DOES_NOT_EXIST → e.val = DOES_NOT_EXIST)))

theorem hasTag1_of_lt {v : Nat} (h : v < TAG1) : hasTag1 v = false := by
  unfold hasTag1
  unfold TAG1 at h
  exact Nat.testBit_lt_two_pow h

/-- The state of a generation after `hti_cas` installs a fresh value
`v` for key `k` at entry `i` (installing the key first when the entry
was empty). -/
def addedGen (g : Hti) (i k v : Nat) (emp : Bool) : Hti :=
  { g with
      table := setEntVal (if emp then setEntKey g.table i k else g.table) i v,
      count := g.count + 1 }

theorem lookup_fst {g : Hti} {k kh : Nat} {r : LookupRes} {c : Nat}
    (h : hti_lookup g k kh = (r, c)) :
    hti_lookup_go g.table k kh g.scale g.maxProbe (kh % 2 ^ g.scale) = (r, c) := h

theorem hti_found_lt {g : Hti} (hwf : HtiWF g) {k kh i : Nat} {emp : Bool} {c : Nat}
    (hfind : hti_lookup g k kh = (.found i emp, c)) : i < g.table.length := by
  have h2 : 2 ≤ g.scale := by
    have := hwf.2.1
    unfold MIN_SCALE at this
    omega
  rw [hwf.1]
  exact lookup_go_found_lt h2
    (Nat.mod_lt _ (Nat.pos_pow_of_pos g.scale (by omega))) (lookup_fst hfind)

/-- On a well-formed table not containing `k`, `hti_cas` with
expectation `DOES_NOT_EXIST` installs the value at the found entry. -/
theorem hti_cas_add {g : Hti} (hwf : HtiWF g) {k kh : Nat} (hk0 : ¬ k = DOES_NOT_EXIST)
    {v : Nat} (hv : LegalVal v)
    (habs : ∀ e ∈ g.table, e.key = k → e.val = DOES_NOT_EXIST ∨ e.val = TOMBSTONE)
    {i : Nat} {emp : Bool} {c : Nat} (hfind : hti_lookup g k kh = (.found i emp, c))
    (totalCount : Int) (fuel : Nat) :
    hti_cas totalCount fuel g [] k kh CAS_EXPECT_DOES_NOT_EXIST v
        = ((entAt g.table i).val, addedGen g i k v emp, [])
      ∧ ((entAt g.table i).val = DOES_NOT_EXIST ∨ (entAt g.table i).val = TOMBSTONE) := by
  have hlenT : i < g.table.length := hti_found_lt hwf hfind
  have hment := entAt_mem g.table i hlenT
  have hsound := (lookup_go_sound (lookup_fst hfind)).1
  have hvne : ¬ v = DOES_NOT_EXIST := by
    obtain ⟨h1, _⟩ := hv
    unfold DOES_NOT_EXIST
    omega
  have hvtomb : ¬ v = TOMBSTONE := by
    obtain ⟨_, h2⟩ := hv
    have hb : (TAG2 : Nat) < TOMBSTONE := by decide
    omega
  have hfst : (hti_lookup g k kh).1 = .found i emp := by rw [hfind]
  have hwfe := hwf.2.2 (entAt g.table i) hment
  cases emp with
  | true =>
    have hw0 : (entAt g.table i).val = DOES_NOT_EXIST := by
      apply hwfe.2
      simpa using hsound
    have hkeyset := entAt_setEntKey_eq g.table i k hlenT
    have hv0 : ¬ v = 0 := by simpa [DOES_NOT_EXIST] using hvne
    have htag0 : hasTag1 0 = false := hasTag1_of_lt (by decide)
    refine ⟨?_, Or.inl hw0⟩
    simp only [hti_cas, hfst]
    simp [hvne, hv0, hkeyset, hw0, htag0,
      addedGen, CAS_EXPECT_DOES_NOT_EXIST, DOES_NOT_EXIST, Ne.symm hv0]
  | false =>
    have hwk : (entAt g.table i).key = k := by simpa using hsound
    have hwv := habs (entAt g.table i) hment hwk
    have hfact : hasTag1 (entAt g.table i).val = false := hwfe.1
    have hv0 : ¬ v = 0 := by simpa [DOES_NOT_EXIST] using hvne
    have htag0 : hasTag1 0 = false := hasTag1_of_lt (by decide)
    have htagT : hasTag1 TOMBSTONE = false := hasTag1_of_lt (by decide)
    refine ⟨?_, hwv⟩
    simp only [hti_cas, hfst]
    rcases hwv with hw0 | hwTomb
    · simp [hvne, hv0, hw0, htag0, addedGen, CAS_EXPECT_DOES_NOT_EXIST, DOES_NOT_EXIST,
        Ne.symm hv0]
    · have hTombNe : ¬ (TOMBSTONE : Nat) = 0 := by decide
      have hWhat : ¬ (CAS_EXPECT_DOES_NOT_EXIST = CAS_EXPECT_WHATEVER) := by decide
      have hTombNeV : ¬ (TOMBSTONE : Nat) = v := Ne.symm (fun hcon => hvtomb hcon)
      simp [hvne, hv0, hwTomb, htagT, addedGen, CAS_EXPECT_DOES_NOT_EXIST, DOES_NOT_EXIST,
        hTombNe, hWhat, hTombNeV, Ne.symm hvtomb]

theorem setEntVal_length (t : List Entry) (i v : Nat) :
    (setEntVal t i v).length = t.length := by
  simp [setEntVal]

theorem setEntKey_length (t : List Entry) (i k : Nat) :
    (setEntKey t i k).length = t.length := by
  simp [setEntKey]

/-- Keys are untouched by a value write. -/
theorem setEntVal_keys (t : List Entry) (i v : Nat) :
    ∀ j, (entAt (setEntVal t i v) j).key = (entAt t j).key := by
  intro j
  by_cases hji : i = j
  · subst hji
    by_cases hi : i < t.length
    · rw [entAt_setEntVal_eq t i v hi]
    · unfold setEntVal
      rw [List.set_eq_of_length_le (by omega)]
  · rw [entAt_setEntVal_ne t i j v hji]

theorem addedGen_table_ne {g : Hti} (i k v : Nat) (emp : Bool) {j : Nat} (h : j ≠ i) :
    entAt (addedGen g i k v emp).table j = entAt g.table j := by
  show entAt (setEntVal (if emp then setEntKey g.table i k else g.table) i v) j = _
  rw [entAt_setEntVal_ne _ i j v (fun he => h he.symm)]
  cases emp with
  | true =>
    show entAt (setEntKey g.table i k) j = entAt g.table j
    exact entAt_setEntKey_ne g.table i j k (fun he => h he.symm)
  | false => rfl

theorem addedGen_table_eq {g : Hti} (i k v : Nat) (emp : Bool)
    (hlen : i < g.table.length) :
    entAt (addedGen g i k v emp).table i
      = ⟨if emp then k else (entAt g.table i).key, v⟩ := by
  cases emp with
  | true =>
    show entAt (setEntVal (setEntKey g.table i k) i v) i = _
    rw [entAt_setEntVal_eq _ i v (by rw [setEntKey_length]; omega),
      entAt_setEntKey_eq g.table i k hlen]
    rfl
  | false =>
    show entAt (setEntVal g.table i v) i = _
    rw [entAt_setEntVal_eq g.table i v hlen]
    rfl

/-- After `hti_cas` installs `v`, the probe finds the same index as a
proper key match with the same bucket count. -/
theorem hti_lookup_added {g : Hti} (hwf : HtiWF g) {k kh : Nat}
    (hk0 : ¬ k = DOES_NOT_EXIST) (v : Nat) {i : Nat} {emp : Bool} {c : Nat}
    (hfind : hti_lookup g k kh = (.found i emp, c)) :
    hti_lookup (addedGen g i k v emp) k kh = (.found i false, c) := by
  have hlenT : i < g.table.length := hti_found_lt hwf hfind
  have hsound := (lookup_go_sound (lookup_fst hfind)).1
  have hsound' : (entAt g.table i).key = DOES_NOT_EXIST ∨ (entAt g.table i).key = k := by
    cases emp with
    | true => exact Or.inl (by simpa using hsound)
    | false => exact Or.inr (by simpa using hsound)
  have hne : ∀ j, j ≠ i → entAt (addedGen g i k v emp).table j = entAt g.table j :=
    fun j hj => addedGen_table_ne i k v emp hj
  have hi : (entAt (addedGen g i k v emp).table i).key = k := by
    rw [addedGen_table_eq i k v emp hlenT]
    cases emp with
    | true => rfl
    | false =>
      show (entAt g.table i).key = k
      simpa using hsound
  show hti_lookup_go (addedGen g i k v emp).table k kh g.scale g.maxProbe
      (kh % 2 ^ g.scale) = (.found i false, c)
  exact lookup_go_update hk0 hne hi hsound' (lookup_fst hfind)

theorem legal_lt_TAG1 {w : Nat} (hw : LegalVal w) : w < TAG1 := by
  obtain ⟨_, h2⟩ := hw
  have hb : (TAG2 : Nat) < TAG1 := by decide
  omega

theorem legal_ne_TOMBSTONE {w : Nat} (hw : LegalVal w) : ¬ w = TOMBSTONE := by
  obtain ⟨_, h2⟩ := hw
  have hb : (TAG2 : Nat) < TOMBSTONE := by decide
  omega

theorem legal_ne_DNE {w : Nat} (hw : LegalVal w) : ¬ w = DOES_NOT_EXIST := by
  obtain ⟨h1, _⟩ := hw
  unfold DOES_NOT_EXIST
  omega

theorem legal_ne_COPIED {w : Nat} (hw : LegalVal w) : ¬ w = COPIED_VALUE := by
  obtain ⟨_, h2⟩ := hw
  have hb : (TAG2 : Nat) < COPIED_VALUE := by decide
  omega

/-- `hti_get` after the install finds the fresh value. -/
theorem hti_get_added {g : Hti} (hwf : HtiWF g) {k kh : Nat}
    (hk0 : ¬ k = DOES_NOT_EXIST) {v : Nat} (hv : LegalVal v)
    {i : Nat} {emp : Bool} {c : Nat}
    (hfind : hti_lookup g k kh = (.found i emp, c)) (totalCount : Int) (fuel : Nat) :
    hti_get totalCount (fuel + 1) [addedGen g i k v emp] k kh
      = (v, [addedGen g i k v emp]) := by
  have hlenT : i < g.table.length := hti_found_lt hwf hfind
  have hlook := hti_lookup_added hwf hk0 v hfind
  have hfst : (hti_lookup (addedGen g i k v emp) k kh).1 = .found i false := by
    rw [hlook]
  have hval : (entAt (addedGen g i k v emp).table i).val = v := by
    rw [addedGen_table_eq i k v emp hlenT]
  have htagv : hasTag1 v = false := hasTag1_of_lt (legal_lt_TAG1 hv)
  have hvtomb := legal_ne_TOMBSTONE hv
  simp only [hti_get, hfst]
  simp [hval, htagv, hvtomb]

/-- The state of a generation after the cas deleting `k` stores a
tombstone over the live value at entry `i`. -/
def removedGen (g : Hti) (i : Nat) : Hti :=
  { g with table := setEntVal g.table i TOMBSTONE, count := g.count - 1 }

/-- A cas with expectation `WHATEVER` and the deletion value on a live
entry stores `TOMBSTONE`, decrements the count and returns the old
value. -/
theorem hti_cas_remove_live {g : Hti} {k kh i : Nat} {c : Nat}
    (hfind : hti_lookup g k kh = (.found i false, c))
    {w : Nat} (hw : LegalVal w) (hval : (entAt g.table i).val = w)
    (totalCount : Int) (fuel : Nat) :
    hti_cas totalCount fuel g [] k kh CAS_EXPECT_WHATEVER DOES_NOT_EXIST
      = (w, removedGen g i, []) := by
  have hfst : (hti_lookup g k kh).1 = .found i false := by rw [hfind]
  have htagw : hasTag1 w = false := hasTag1_of_lt (legal_lt_TAG1 hw)
  have hwtomb := legal_ne_TOMBSTONE hw
  have hw0 := legal_ne_DNE hw
  simp only [hti_cas, hfst]
  simp [hval, htagw, hwtomb, hw0, removedGen, Ne.symm hw0]

/-- The single-generation `ht_remove` loop on a live entry. -/
theorem ht_remove_single {g : Hti} {k kh i : Nat} {c : Nat}
    (hfind : hti_lookup g k kh = (.found i false, c))
    {w : Nat} (hw : LegalVal w) (hval : (entAt g.table i).val = w)
    (totalCount : Int) (fuel : Nat) :
    ht_remove totalCount (fuel + 1) [g] k kh = (w, [removedGen g i]) := by
  have hcas := hti_cas_remove_live hfind hw hval totalCount fuel
  have hwcop := legal_ne_COPIED hw
  have hwtomb := legal_ne_TOMBSTONE hw
  simp only [ht_remove, hcas]
  simp [hwcop, hwtomb]

/-- Storing a tombstone does not move the probe's landing point. -/
theorem hti_lookup_removed {g : Hti} (i : Nat) {k kh : Nat} {r : LookupRes} {c : Nat}
    (hfind : hti_lookup g k kh = (r, c)) :
    hti_lookup (removedGen g i) k kh = (r, c) := by
  show hti_lookup_go (setEntVal g.table i TOMBSTONE) k kh g.scale g.maxProbe
      (kh % 2 ^ g.scale) = (r, c)
  rw [lookup_go_keys_eq (setEntVal_keys g.table i TOMBSTONE) g.maxProbe
    (kh % 2 ^ g.scale)]
  exact hfind

/-- After the delete, `hti_get` translates the tombstone to `ABSENT`. -/
theorem hti_get_removed {g : Hti} {k kh i : Nat} {c : Nat}
    (hfind : hti_lookup g k kh = (.found i false, c)) (hlen : i < g.table.length)
    (totalCount : Int) (fuel : Nat) :
    hti_get totalCount (fuel + 1) [removedGen g i] k kh
      = (DOES_NOT_EXIST, [removedGen g i]) := by
  have hlook := hti_lookup_removed i hfind
  have hfst : (hti_lookup (removedGen g i) k kh).1 = .found i false := by rw [hlook]
  have hval : (entAt (removedGen g i).table i).val = TOMBSTONE := by
    show (entAt (setEntVal g.table i TOMBSTONE) i).val = TOMBSTONE
    rw [entAt_setEntVal_eq g.table i TOMBSTONE hlen]
  have htagT : hasTag1 TOMBSTONE = false := hasTag1_of_lt (by decide)
  simp only [hti_get, hfst]
  simp [hval, htagT]

/-- The generation loop on a single-generation chain: the add is one
`hti_cas` whose previous value never directs to a successor. -/
theorem casLoop_add {g : Hti} (hwf : HtiWF g) {k kh : Nat}
    (hk0 : ¬ k = DOES_NOT_EXIST) {v : Nat} (hv : LegalVal v)
    (habs : ∀ e ∈ g.table, e.key = k → e.val = DOES_NOT_EXIST ∨ e.val = TOMBSTONE)
    {i : Nat} {emp : Bool} {c : Nat} (hfind : hti_lookup g k kh = (.found i emp, c))
    (totalCount : Int) (fuel : Nat) :
    casLoop totalCount (fuel + 1) [g] k kh CAS_EXPECT_DOES_NOT_EXIST v
        = ((entAt g.table i).val, [addedGen g i k v emp])
      ∧ ((entAt g.table i).val = DOES_NOT_EXIST ∨ (entAt g.table i).val = TOMBSTONE) := by
  obtain ⟨hcas, hold⟩ := hti_cas_add hwf hk0 hv habs hfind totalCount fuel
  have hnotcop : ¬ (entAt g.table i).val = COPIED_VALUE := by
    rcases hold with h | h <;> rw [h] <;> decide
  refine ⟨?_, hold⟩
  simp only [casLoop, hcas]
  simp [hnotcop]

/-- `ht_cas` on a single generation: a successful add over an absent key
returns `ABSENT` (the tombstone case included, by the caller-side
translation) and installs the value. -/
theorem ht_cas_add_single {g : Hti} (hwf : HtiWF g) {k kh : Nat}
    (hk0 : ¬ k = DOES_NOT_EXIST) {v : Nat} (hv : LegalVal v)
    (habs : ∀ e ∈ g.table, e.key = k → e.val = DOES_NOT_EXIST ∨ e.val = TOMBSTONE)
    {i : Nat} {emp : Bool} {c : Nat} (hfind : hti_lookup g k kh = (.found i emp, c))
    (fuel : Nat) :
    ht_cas (fuel + 1) [g] k kh CAS_EXPECT_DOES_NOT_EXIST v
      = (DOES_NOT_EXIST, [addedGen g i k v emp]) := by
  obtain ⟨hloop, hold⟩ := casLoop_add hwf hk0 hv habs hfind (ht_count [g]) fuel
  simp only [ht_cas, List.isEmpty_nil, if_true, hloop]
  rcases hold with h | h <;> simp [h]

/-- An empty probe slot with an expectation that demands an existing
entry: the cas fails with `ABSENT` and writes nothing
(src/map/hashtable.c:330-333). -/
theorem hti_cas_fail_empty {g : Hti} {k kh : Nat} {exp : Nat}
    (hexp : ¬ (exp = CAS_EXPECT_WHATEVER ∨ exp = CAS_EXPECT_DOES_NOT_EXIST))
    {i : Nat} {c : Nat} (hfind : hti_lookup g k kh = (.found i true, c))
    (totalCount : Int) (fuel : Nat) (rest : List Hti) (newv : Nat) :
    hti_cas totalCount fuel g rest k kh exp newv = (DOES_NOT_EXIST, g, rest) := by
  have hfst : (hti_lookup g k kh).1 = .found i true := by rw [hfind]
  simp only [hti_cas, hfst]
  simp [hexp]

/-- A live entry whose value differs from the (non-wildcard) expected
value: the hashtable checks the expectation (src/map/hashtable.c:368-376)
and fails, returning the observed value and writing nothing. -/
theorem hti_cas_fail_mismatch {g : Hti} {k kh i : Nat} {c : Nat}
    (hfind : hti_lookup g k kh = (.found i false, c))
    {w : Nat} (hw : LegalVal w) (hval : (entAt g.table i).val = w)
    {exp : Nat} (hexpW : ¬ exp = CAS_EXPECT_WHATEVER)
    (hexpE : ¬ exp = CAS_EXPECT_EXISTS) (hexpv : ¬ exp = w)
    (totalCount : Int) (fuel : Nat) (rest : List Hti) (newv : Nat) :
    hti_cas totalCount fuel g rest k kh exp newv = (w, g, rest) := by
  have hfst : (hti_lookup g k kh).1 = .found i false := by rw [hfind]
  have htagw : hasTag1 w = false := hasTag1_of_lt (legal_lt_TAG1 hw)
  have hwtomb := legal_ne_TOMBSTONE hw
  have hw0 := legal_ne_DNE hw
  simp only [hti_cas, hfst]
  simp [hval, htagw, hwtomb, hw0, hexpW, hexpE, hexpv]

/-- A tombstoned (or killed) entry with an expectation that is neither
the wildcard nor `DOES_NOT_EXIST` nor the dead value itself: the cas
fails, returns the dead value and writes nothing. -/
theorem hti_cas_fail_dead {g : Hti} {k kh i : Nat} {c : Nat}
    (hfind : hti_lookup g k kh = (.found i false, c))
    (hval : (entAt g.table i).val = TOMBSTONE ∨ (entAt g.table i).val = DOES_NOT_EXIST)
    {exp : Nat} (hexpW : ¬ exp = CAS_EXPECT_WHATEVER)
    (hexpD : ¬ exp = CAS_EXPECT_DOES_NOT_EXIST)
    (hexpT : ¬ exp = TOMBSTONE) (hexp0 : ¬ exp = DOES_NOT_EXIST)
    (totalCount : Int) (fuel : Nat) (rest : List Hti) (newv : Nat) :
    hti_cas totalCount fuel g rest k kh exp newv
      = ((entAt g.table i).val, g, rest) := by
  have hfst : (hti_lookup g k kh).1 = .found i false := by rw [hfind]
  have htagT : hasTag1 TOMBSTONE = false := hasTag1_of_lt (by decide)
  have htag0 : hasTag1 DOES_NOT_EXIST = false := hasTag1_of_lt (by decide)
  simp only [hti_cas, hfst]
  rcases hval with h | h <;>
    simp [h, htagT, htag0, hexpW, hexpD, hexpT, hexp0]

/-! ## STM transactions (src/txn/txn.c)

Single-threaded shallow embedding.  Update records live in an explicit
heap (`txn->writes[i].rec` pointers become indices); the
active-transactions skiplist `active_` is an association list from read
version to reference count; `version_` is the global version counter. -/

def UNDETERMINED_VERSION : Nat := 0

/-- `TAG_VALUE(0, TAG1)` (src/txn/txn.c:12). -/
def ABORTED_VERSION : Nat := TAG1

/-- Modelled from the spec: the header revision defining the error
codes is not under `src/`; the spec fixes only that the code is a small
negative integer ("Error returns are small negative integers: invalid
option, invalid argument, unsupported feature, transaction-not-running",
the fourth of the list, `(uint64_t)-4` here).  The claims depend only on
the code being returned unchanged by the guard. -/
def ERROR_TXN_NOT_RUNNING : Nat := U64 - 4

inductive TxnStateE where
  | running
  | validating
  | validated
  | aborted
  deriving Repr, DecidableEq

structure UpdateRec where
  version : Nat
  value : Nat
  next : Nat
  deriving Repr, DecidableEq

structure WriteRec where
  key : Nat
  urec : Nat
  deriving Repr, DecidableEq

structure Txn where
  rv : Nat
  wv : Nat
  writes : List WriteRec
  state : TxnStateE
  deriving Repr, DecidableEq

/-- The shared state `txn.c` acts on. -/
structure TxnEnv where
  heap : List UpdateRec
  active : List (Nat × Nat)
  version : Nat
  deriving Repr, DecidableEq

/-- `update->version = v` through a write-record pointer. -/
def setVersion (v : Nat) (heap : List UpdateRec) (i : Nat) : List UpdateRec :=
  match heap.get? i with
  | none => heap
  | some u => heap.set i { u with version := v }

/-- `txn_abort` (src/txn/txn.c:189-202): on a transaction that is not
RUNNING, return with no effect (and no error code, the source's TODO);
otherwise publish `ABORTED_VERSION` to every update record of the write
log.  Nothing else is touched: in particular the active-transactions
map and the global version counter are left as they are. -/
def txn_abort (txn : Txn) (env : TxnEnv) : Txn × TxnEnv :=
  if ¬ txn.state = TxnStateE.running then (txn, env)
  else
    (txn, { env with
      heap := txn.writes.foldl (fun h w => setVersion ABORTED_VERSION h w.urec) env.heap })

def slSetCount (active : List (Nat × Nat)) (rv n : Nat) : List (Nat × Nat) :=
  active.map (fun p => if p.1 = rv then (p.1, n) else p)

def slRemoveKey (active : List (Nat × Nat)) (rv : Nat) : List (Nat × Nat) :=
  active.filter (fun p => ¬ p.1 = rv)

/-- `sl_cas(active_, rv, old, new)` on the active-transactions skiplist
(version ↦ reference count), single-threaded.  As in the full skiplist
embedding above, the expectation is compared only against the existence
classes (skiplist.c checks `CAS_EXPECT_DOES_NOT_EXIST` and nothing
else): a concrete expected count is NOT checked against the stored one
— the stored count is overwritten regardless and the old count
returned.  `none` is the divergent single-threaded retry on a node
whose value was already swapped to `DOES_NOT_EXIST`. -/
def slCasCount (active : List (Nat × Nat)) (rv old new : Nat) :
    Option (Nat × List (Nat × Nat)) :=
  match active.find? (fun p => p.1 = rv) with
  | none =>
    if (0 < old ∧ old < TAG1) ∨ old = CAS_EXPECT_EXISTS then some (0, active)
    else some (0, (rv, new) :: active)
  | some p =>
    if p.2 = 0 then none
    else if old = CAS_EXPECT_DOES_NOT_EXIST then some (p.2, active)
    else some (p.2, slSetCount active rv new)

/-- The reference-count loop of `txn_commit` (src/txn/txn.c:220-230):
`unsigned temp = 2`; each round runs
`temp = sl_cas(active_, rv, old_count, old_count - 1)` (the count
arithmetic and the loop variables are 32-bit unsigned) and, when the
returned count is 1 while `rv` differs from the global version, removes
the key and stops; the loop repeats while `old_count != temp`.  `none`
is fuel exhaustion or the divergent `sl_cas` retry. -/
def retireLoop (rv version : Nat) : Nat → Nat → List (Nat × Nat) → Option (List (Nat × Nat))
  | 0, _, _ => none
  | fuel + 1, temp, active =>
    let old_count := temp
    match slCasCount active rv old_count ((old_count + 2 ^ 32 - 1) % 2 ^ 32) with
    | none => none
    | some r =>
      if r.1 % 2 ^ 32 = 1 ∧ ¬ rv = version then some (slRemoveKey r.2 rv)
      else if ¬ old_count = r.1 % 2 ^ 32 then retireLoop rv version fuel (r.1 % 2 ^ 32) r.2
      else some r.2

/-- The retire step of `txn_commit` as called (initial `temp = 2`). -/
def txn_commit_retire (fuel : Nat) (active : List (Nat × Nat)) (rv version : Nat) :
    Option (List (Nat × Nat)) :=
  retireLoop rv version fuel 2 active

/-- `txn_map_get`'s not-running guard (src/txn/txn.c:239-242); the body
(the committed-version search, which only runs on a RUNNING transaction)
is abstracted as a parameter. -/
def txn_map_get (body : Txn → TxnEnv → Nat → Nat × TxnEnv)
    (txn : Txn) (env : TxnEnv) (key : Nat) : Nat × TxnEnv :=
  if ¬ txn.state = TxnStateE.running then (ERROR_TXN_NOT_RUNNING, env)
  else body txn env key

/-- `txn_map_set`'s not-running guard (src/txn/txn.c:353-355): the
function is `void`, so no error code exists to return (`none`); the body
is abstracted as a parameter. -/
def txn_map_set (body : Txn → TxnEnv → Nat → Nat → Txn × TxnEnv)
    (txn : Txn) (env : TxnEnv) (key value : Nat) : Option Nat × Txn × TxnEnv :=
  if ¬ txn.state = TxnStateE.running then (none, txn, env)
  else (none, body txn env key value)

/-! ### Transaction lemmas -/

theorem setVersion_length (v : Nat) (heap : List UpdateRec) (i : Nat) :
    (setVersion v heap i).length = heap.length := by
  unfold setVersion
  cases heap.get? i <;> simp

/-- A position already holding the published version keeps it. -/
theorem setVersion_keeps {v : Nat} {heap : List UpdateRec} {i : Nat} (j : Nat)
    (h : (heap.get? i).map UpdateRec.version = some v) :
    ((setVersion v heap j).get? i).map UpdateRec.version = some v := by
  unfold setVersion
  cases hj : heap.get? j with
  | none => exact h
  | some u =>
    dsimp only
    by_cases hij : j = i
    · subst hij
      have hlt : j < heap.length := by
        by_contra hge
        rw [List.get?_eq_none.mpr (by omega)] at hj
        cases hj
      rw [List.get?_set_eq_of_lt _ hlt]
      rw [hj] at h
      simpa using h
    · rw [List.get?_set_ne _ heap hij]
      exact h

/-- Publishing to position `i` puts the version there. -/
theorem setVersion_writes {v : Nat} {heap : List UpdateRec} {i : Nat}
    (h : i < heap.length) :
    ((setVersion v heap i).get? i).map UpdateRec.version = some v := by
  unfold setVersion
  cases hj : heap.get? i with
  | none =>
    have := List.get?_eq_none.mp hj
    omega
  | some u =>
    dsimp only
    rw [List.get?_set_eq_of_lt _ h]
    simp

theorem fold_keeps (v : Nat) :
    ∀ (ws : List WriteRec) (heap : List UpdateRec) {i : Nat},
      ((heap.get? i).map UpdateRec.version = some v) →
      (((ws.foldl (fun h x => setVersion v h x.urec) heap).get? i).map
          UpdateRec.version = some v)
  | [], heap, i => by simp
  | x :: ws, heap, i => by
    intro h
    rw [List.foldl_cons]
    exact fold_keeps v ws _ (setVersion_keeps _ h)

theorem abort_fold_sets (v : Nat) :
    ∀ (ws : List WriteRec) (heap : List UpdateRec) (w : WriteRec), w ∈ ws →
      w.urec < heap.length →
      ((ws.foldl (fun h x => setVersion v h x.urec) heap).get? w.urec).map
          UpdateRec.version = some v
  | [], heap, w => by simp
  | x :: ws, heap, w => by
    intro hmem hlen
    rcases List.mem_cons.mp hmem with hw | hw
    · subst hw
      rw [List.foldl_cons]
      exact fold_keeps v ws _ (setVersion_writes hlen)
    · rw [List.foldl_cons]
      exact abort_fold_sets v ws _ w hw (by rw [setVersion_length]; omega)

/-- Writing a count and then removing the key is just removing it. -/
theorem slRemoveKey_slSetCount (rv x : Nat) : ∀ active : List (Nat × Nat),
    slRemoveKey (slSetCount active rv x) rv = slRemoveKey active rv
  | [] => rfl
  | p :: a => by
    show slRemoveKey ((if p.1 = rv then (p.1, x) else p) :: slSetCount a rv x) rv = _
    unfold slRemoveKey
    by_cases hp : p.1 = rv
    · rw [if_pos hp, List.filter_cons, List.filter_cons,
        if_neg (by simp [hp]), if_neg (by simp [hp])]
      exact slRemoveKey_slSetCount rv x a
    · rw [if_neg hp, List.filter_cons, List.filter_cons,
        if_pos (by simp [hp]), if_pos (by simp [hp])]
      exact congrArg (fun l => p :: l) (slRemoveKey_slSetCount rv x a)

/-- Overwriting the count moves the probe's hit to the new count. -/
theorem find_slSetCount (x : Nat) : ∀ {active : List (Nat × Nat)} {rv n : Nat},
    active.find? (fun p => p.1 = rv) = some (rv, n) →
    (slSetCount active rv x).find? (fun p => p.1 = rv) = some (rv, x)
  | [], rv, n => by simp
  | p :: a, rv, n => by
    intro h
    show ((if p.1 = rv then (p.1, x) else p) :: slSetCount a rv x).find? _ = _
    by_cases hp : p.1 = rv
    · rw [if_pos hp, List.find?_cons_of_pos _ (by simp [hp]), hp]
    · rw [if_neg hp, List.find?_cons_of_neg _ (by simp [hp])]
      rw [List.find?_cons_of_neg _ (by simp [hp])] at h
      exact find_slSetCount x h

/-- The commit retire loop on a count of exactly 2 decrements it to 1
and keeps the key: the one count at which the decrement works as the
spec describes. -/
theorem retire_decrements {active : List (Nat × Nat)} {rv version : Nat}
    (hfind : active.find? (fun p => p.1 = rv) = some (rv, 2)) (fuel : Nat) :
    txn_commit_retire (fuel + 1) active rv version
      = some (slSetCount active rv 1) := by
  unfold txn_commit_retire
  rw [retireLoop]
  have hsub : (2 + 2 ^ 32 - 1) % 2 ^ 32 = 1 := by decide
  have h2D : ¬ (2 : Nat) = CAS_EXPECT_DOES_NOT_EXIST := by decide
  rw [hsub]
  unfold slCasCount
  rw [hfind]
  dsimp only
  rw [if_neg (show ¬ (2 : Nat) = 0 by decide), if_neg h2D]
  dsimp only
  rw [if_neg (fun hc => absurd hc.1 (by decide)), if_neg (by decide)]

/-- The commit retire loop on a count of 1, with the read version older
than the global version, removes the key. -/
theorem retire_removes_one {active : List (Nat × Nat)} {rv version : Nat}
    (hfind : active.find? (fun p => p.1 = rv) = some (rv, 1))
    (hne : ¬ rv = version) (fuel : Nat) :
    txn_commit_retire (fuel + 1) active rv version
      = some (slRemoveKey active rv) := by
  unfold txn_commit_retire
  rw [retireLoop]
  have hsub : (2 + 2 ^ 32 - 1) % 2 ^ 32 = 1 := by decide
  have h2D : ¬ (2 : Nat) = CAS_EXPECT_DOES_NOT_EXIST := by decide
  rw [hsub]
  unfold slCasCount
  rw [hfind]
  dsimp only
  rw [if_neg (show ¬ (1 : Nat) = 0 by decide), if_neg h2D]
  dsimp only
  rw [if_pos ⟨by decide, hne⟩, slRemoveKey_slSetCount]

/-- The commit retire loop on a count of 3 or more, with the read
version older than the global version, REMOVES the key: `sl_cas` does
not check the concrete expectation 2 against the stored count, so the
first round overwrites the count with 1; the second round reads the 1
back and takes the removal branch while other transactions still hold
references to `rv`. -/
theorem retire_removes_many {active : List (Nat × Nat)} {rv version n : Nat}
    (hfind : active.find? (fun p => p.1 = rv) = some (rv, n))
    (h3 : 3 ≤ n) (h32 : n < 2 ^ 32) (hne : ¬ rv = version) (fuel : Nat) :
    txn_commit_retire (fuel + 2) active rv version
      = some (slRemoveKey active rv) := by
  unfold txn_commit_retire
  rw [retireLoop]
  have hsub : (2 + 2 ^ 32 - 1) % 2 ^ 32 = 1 := by decide
  have h2D : ¬ (2 : Nat) = CAS_EXPECT_DOES_NOT_EXIST := by decide
  have hmod : n % 2 ^ 32 = n := Nat.mod_eq_of_lt h32
  have hn0 : ¬ n = 0 := by omega
  have hn1 : ¬ n = 1 := by omega
  have hn2 : ¬ 2 = n := by omega
  have hnD : ¬ n = CAS_EXPECT_DOES_NOT_EXIST := by
    unfold CAS_EXPECT_DOES_NOT_EXIST
    omega
  have hfind1 : (slSetCount active rv 1).find? (fun p => p.1 = rv) = some (rv, 1) :=
    find_slSetCount 1 hfind
  rw [hsub]
  unfold slCasCount
  rw [hfind]
  dsimp only
  rw [if_neg hn0, if_neg h2D]
  dsimp only
  rw [if_neg (fun hc => hn1 (hmod ▸ hc.1))]
  rw [if_pos (show ¬ 2 = n % 2 ^ 32 by rw [hmod]; exact hn2)]
  rw [hmod, retireLoop]
  unfold slCasCount
  rw [hfind1]
  dsimp only
  rw [if_neg (show ¬ (1 : Nat) = 0 by decide), if_neg hnD]
  dsimp only
  rw [if_pos ⟨by decide, hne⟩, slRemoveKey_slSetCount, slRemoveKey_slSetCount]

/-! ## Quiescent-state reclamation (src/runtime/rcu.c)

The gossip matrices `rcu_` / `rcu_last_posted_` and the per-thread
pending fifos, as a step relation over the threads' `nbd_defer_free`
and `rcu_update` calls.  A deferred block's identity is its position in
its thread's queue: `head t` counts blocks thread `t` has enqueued,
`tail t` counts blocks it has passed to `nbd_free` (the fifo hands
blocks to `nbd_free` strictly in position order). -/

def RCU_POST_THRESHOLD : Nat := 10

structure RcuState where
  rcu : Nat → Nat → Nat
  lastPosted : Nat → Nat → Nat
  head : Nat → Nat
  tail : Nat → Nat

def initRcu : RcuState := ⟨fun _ _ => 0, fun _ _ => 0, fun _ => 0, fun _ => 0⟩

inductive RcuStep where
  | defer (t : Nat)
  | update (t : Nat)
  deriving Repr, DecidableEq

/-- Thread ids of a step are registered (`tid_ < num_threads_`). -/
def RcuStepOk (N : Nat) : RcuStep → Prop
  | .defer t => t < N
  | .update t => t < N

instance (N : Nat) (st : RcuStep) : Decidable (RcuStepOk N st) :=
  match st with
  | .defer t => Nat.decLt t N
  | .update t => Nat.decLt t N

def fupd (f : Nat → Nat) (i v : Nat) : Nat → Nat :=
  fun j => if j = i then v else f j

def fupd2 (f : Nat → Nat → Nat) (i j v : Nat) : Nat → Nat → Nat :=
  fun a b => if a = i ∧ b = j then v else f a b

/-- `nbd_defer_free` followed by its `rcu_post`
(src/runtime/rcu.c:97-102 and 63-72): enqueue (`fifo_enqueue`
post-increments `head`, and the post receives the new `head`), then
publish the new head to the next thread's row once it has grown by the
threshold since the last post. -/
def rcuDefer (N t : Nat) (s : RcuState) : RcuState :=
  let h := s.head t + 1
  let s1 := { s with head := fupd s.head t h }
  if h - s1.lastPosted t t < RCU_POST_THRESHOLD then s1
  else
    { s1 with rcu := fupd2 s1.rcu ((t + 1) % N) t h,
              lastPosted := fupd2 s1.lastPosted t t h }

/-- One iteration of `rcu_update`'s propagation loop
(src/runtime/rcu.c:79-89). -/
def rcuPropagate (N t : Nat) (s : RcuState) (i : Nat) : RcuState :=
  if i = t then s
  else if s.rcu t i = s.lastPosted t i then s
  else
    { s with rcu := fupd2 s.rcu ((t + 1) % N) i (s.rcu t i),
             lastPosted := fupd2 s.lastPosted t i (s.rcu t i) }

/-- `rcu_update` (src/runtime/rcu.c:74-95): propagate every changed
column to the next thread's row, then free the pending queue up to
`rcu_[t][t]` (the while loop at rcu.c:92-94 dequeues into `nbd_free`
until `tail` equals it). -/
def rcuUpdate (N t : Nat) (s : RcuState) : RcuState :=
  let s1 := (List.range N).foldl (rcuPropagate N t) s
  { s1 with tail := fupd s1.tail t (s1.rcu t t) }

def rcuStep (N : Nat) (s : RcuState) : RcuStep → RcuState
  | .defer t => rcuDefer N t s
  | .update t => rcuUpdate N t s

def rcuExec (N : Nat) (ss : List RcuStep) : RcuState :=
  ss.foldl (rcuStep N) initRcu

/-- Forward distance around the thread ring from `a` to `b`. -/
def ringDist (N a b : Nat) : Nat :=
  if a % N ≤ b then b - a % N else b + N - a % N

/-- A certificate that thread `v` executed `rcu_update` at a trace
index where thread `t`'s enqueue counter had already reached `x`. -/
def Cert (N : Nat) (ss : List RcuStep) (t v x : Nat) : Prop :=
  ∃ m, m < ss.length ∧ ss.get? m = some (RcuStep.update v) ∧
    x ≤ (rcuExec N (ss.take m)).head t

/-- The ring-provenance invariant: every gossip entry `rcu_[w][t]` is
bounded by `head t` and, when positive, carries a certificate for every
thread strictly between `t` and `w` along the ring. -/
def RingInv (N : Nat) (ss : List RcuStep) : Prop :=
  ∀ t w, t < N → w < N →
    (rcuExec N ss).rcu w t ≤ (rcuExec N ss).head t ∧
    (0 < (rcuExec N ss).rcu w t →
      ∀ v, v < N → ringDist N (t + 1) v < ringDist N (t + 1) w →
        Cert N ss t v ((rcuExec N ss).rcu w t))

/-- The invariant threaded through the propagation fold: entries bounded
by the (unchanged) enqueue counters `hd`, certificates in the extended
trace. -/
def PropInv (N : Nat) (ss2 : List RcuStep) (hd : Nat → Nat) (sk : RcuState) : Prop :=
  ∀ t w, t < N → w < N →
    sk.rcu w t ≤ hd t ∧
    (0 < sk.rcu w t →
      ∀ v, v < N → ringDist N (t + 1) v < ringDist N (t + 1) w →
        Cert N ss2 t v (sk.rcu w t))

theorem propagate_head (N u : Nat) : ∀ (l : List Nat) (s : RcuState),
    ((l.foldl (rcuPropagate N u) s)).head = s.head
  | [], s => rfl
  | i :: l, s => by
    rw [List.foldl_cons, propagate_head N u l]
    unfold rcuPropagate
    split_ifs <;> rfl

theorem propagate_rcu_self (N u : Nat) : ∀ (l : List Nat) (s : RcuState),
    ((l.foldl (rcuPropagate N u) s)).rcu u u = s.rcu u u
  | [], s => rfl
  | i :: l, s => by
    rw [List.foldl_cons, propagate_rcu_self N u l]
    unfold rcuPropagate
    split_ifs with h1 h2
    · rfl
    · rfl
    · show fupd2 s.rcu ((u + 1) % N) i (s.rcu u i) u u = s.rcu u u
      unfold fupd2
      rw [if_neg (fun hc => h1 hc.2.symm)]

theorem rcuDefer_head (N u : Nat) (s : RcuState) (t : Nat) :
    (rcuDefer N u s).head t = fupd s.head u (s.head u + 1) t := by
  unfold rcuDefer
  dsimp only
  split_ifs <;> rfl

theorem rcuDefer_rcu (N u : Nat) (s : RcuState) (w t : Nat) :
    (rcuDefer N u s).rcu w t
      = if ¬ (s.head u + 1 - s.lastPosted u u < RCU_POST_THRESHOLD)
          ∧ w = (u + 1) % N ∧ t = u
        then s.head u + 1 else s.rcu w t := by
  unfold rcuDefer
  dsimp only
  by_cases h1 : s.head u + 1 - s.lastPosted u u < RCU_POST_THRESHOLD
  · rw [if_pos h1, if_neg (fun hc => hc.1 h1)]
  · rw [if_neg h1]
    show fupd2 s.rcu ((u + 1) % N) u (s.head u + 1) w t = _
    unfold fupd2
    by_cases hc : w = (u + 1) % N ∧ t = u
    · rw [if_pos hc, if_pos ⟨h1, hc⟩]
    · rw [if_neg hc, if_neg (fun hcc => hc hcc.2)]

theorem rcuUpdate_head (N u : Nat) (s : RcuState) :
    (rcuUpdate N u s).head = s.head := by
  show ((List.range N).foldl (rcuPropagate N u) s).head = s.head
  exact propagate_head N u (List.range N) s

theorem rcuUpdate_rcu (N u : Nat) (s : RcuState) :
    (rcuUpdate N u s).rcu = ((List.range N).foldl (rcuPropagate N u) s).rcu := rfl

/-- `rcu_update` leaves `tail t` at the pre-update `rcu_[t][t]`. -/
theorem rcuUpdate_tail_self (N u : Nat) (s : RcuState) :
    (rcuUpdate N u s).tail u = s.rcu u u := by
  show fupd ((List.range N).foldl (rcuPropagate N u) s).tail u
      (((List.range N).foldl (rcuPropagate N u) s).rcu u u) u = s.rcu u u
  unfold fupd
  rw [if_pos rfl, propagate_rcu_self N u (List.range N) s]

theorem head_step_le (N : Nat) (s : RcuState) (a : RcuStep) (t : Nat) :
    s.head t ≤ (rcuStep N s a).head t := by
  cases a with
  | defer u =>
    show s.head t ≤ (rcuDefer N u s).head t
    rw [rcuDefer_head]
    unfold fupd
    split_ifs with h
    · subst h
      omega
    · exact Nat.le_refl _
  | update u =>
    show s.head t ≤ (rcuUpdate N u s).head t
    rw [rcuUpdate_head]

theorem head_exec_le (N : Nat) (t : Nat) : ∀ (l : List RcuStep) (s : RcuState),
    s.head t ≤ (l.foldl (rcuStep N) s).head t
  | [], s => Nat.le_refl _
  | a :: l, s => by
    rw [List.foldl_cons]
    exact Nat.le_trans (head_step_le N s a t) (head_exec_le N t l _)

theorem head_take_mono (N : Nat) (ss : List RcuStep) (t : Nat) {m1 m2 : Nat}
    (h : m1 ≤ m2) :
    (rcuExec N (ss.take m1)).head t ≤ (rcuExec N (ss.take m2)).head t := by
  have hsplit : ss.take m2 = ss.take m1 ++ (ss.take m2).drop m1 := by
    conv_lhs => rw [← List.take_append_drop m1 (ss.take m2)]
    rw [List.take_take, Nat.min_eq_left h]
  rw [hsplit]
  unfold rcuExec
  rw [List.foldl_append]
  exact head_exec_le N t _ _

theorem cert_append (N : Nat) {ss : List RcuStep} {t v x : Nat} (l : List RcuStep)
    (h : Cert N ss t v x) : Cert N (ss ++ l) t v x := by
  obtain ⟨m, hm, hget, hhead⟩ := h
  refine ⟨m, by rw [List.length_append]; omega, ?_, ?_⟩
  · rw [List.get?_append hm]
    exact hget
  · rw [List.take_append_of_le_length (by omega)]
    exact hhead

theorem ringDist_lt (N : Nat) (hN : 0 < N) (a b : Nat) (hb : b < N) :
    ringDist N a b < N := by
  unfold ringDist
  have := Nat.mod_lt a hN
  split_ifs <;> omega

theorem ringDist_self (N a : Nat) : ringDist N a (a % N) = 0 := by
  unfold ringDist
  simp

theorem succ_mod (N x : Nat) (h : x < N) :
    (x + 1) % N = if x + 1 = N then 0 else x + 1 := by
  split_ifs with he
  · rw [he, Nat.mod_self]
  · exact Nat.mod_eq_of_lt (by omega)

theorem ringDist_succ (N u i : Nat) (hu : u < N) (hi : i < N) (hne : ¬ i = u) :
    ringDist N (i + 1) ((u + 1) % N) = ringDist N (i + 1) u + 1 := by
  unfold ringDist
  rw [succ_mod N u hu, succ_mod N i hi]
  split_ifs <;> omega

theorem ringDist_inj (N a : Nat) (hN : 0 < N) {v u : Nat} (hv : v < N) (hu : u < N)
    (h : ringDist N a v = ringDist N a u) : v = u := by
  unfold ringDist at h
  have := Nat.mod_lt a hN
  split_ifs at h <;> omega

theorem ringDist_to_self (N t : Nat) (hN : 0 < N) (ht : t < N) :
    ringDist N (t + 1) t = N - 1 := by
  unfold ringDist
  rw [succ_mod N t ht]
  split_ifs <;> omega

theorem rcuPropagate_rcu (N u : Nat) (sk : RcuState) (i w t : Nat)
    (h1 : ¬ i = u) (h2 : ¬ sk.rcu u i = sk.lastPosted u i) :
    (rcuPropagate N u sk i).rcu w t
      = if w = (u + 1) % N ∧ t = i then sk.rcu u i else sk.rcu w t := by
  unfold rcuPropagate
  rw [if_neg h1, if_neg h2]
  rfl

theorem propInv_step (N u i : Nat) (hu : u < N) (hi : i < N)
    (ss : List RcuStep) (sk : RcuState)
    (h : PropInv N (ss ++ [RcuStep.update u]) (rcuExec N ss).head sk) :
    PropInv N (ss ++ [RcuStep.update u]) (rcuExec N ss).head (rcuPropagate N u sk i) := by
  by_cases h1 : i = u
  · unfold rcuPropagate
    rw [if_pos h1]
    exact h
  · by_cases h2 : sk.rcu u i = sk.lastPosted u i
    · unfold rcuPropagate
      rw [if_neg h1, if_pos h2]
      exact h
    · intro t w ht hw
      rw [rcuPropagate_rcu N u sk i w t h1 h2]
      by_cases hc : w = (u + 1) % N ∧ t = i
      · obtain ⟨hcw, hct⟩ := hc
        subst hcw
        subst hct
        rw [if_pos ⟨rfl, rfl⟩]
        refine ⟨(h t u ht hu).1, ?_⟩
        intro hx v hv hdist
        rw [ringDist_succ N u t hu ht h1] at hdist
        rcases Nat.lt_or_ge (ringDist N (t + 1) v) (ringDist N (t + 1) u) with hlt | hge
        · exact (h t u ht hu).2 hx v hv hlt
        · have heq : ringDist N (t + 1) v = ringDist N (t + 1) u := by omega
          have hvu : v = u := ringDist_inj N (t + 1) (by omega) hv hu heq
          subst hvu
          refine ⟨ss.length, by rw [List.length_append]; simp, ?_, ?_⟩
          · rw [List.get?_concat_length]
          · rw [List.take_left]
            exact (h t v ht hv).1
      · rw [if_neg hc]
        exact h t w ht hw

theorem propInv_fold (N u : Nat) (hu : u < N) (ss : List RcuStep) :
    ∀ (l : List Nat), (∀ i ∈ l, i < N) → ∀ sk : RcuState,
      PropInv N (ss ++ [RcuStep.update u]) (rcuExec N ss).head sk →
      PropInv N (ss ++ [RcuStep.update u]) (rcuExec N ss).head
        (l.foldl (rcuPropagate N u) sk)
  | [], _, sk, h => h
  | i :: l, hl, sk, h => by
    rw [List.foldl_cons]
    exact propInv_fold N u hu ss l (fun j hj => hl j (List.mem_cons_of_mem _ hj)) _
      (propInv_step N u i hu (hl i (List.mem_cons_self _ _)) ss sk h)

theorem ringInv_holds (N : Nat) (ss : List RcuStep)
    (hok : ∀ st ∈ ss, RcuStepOk N st) : RingInv N ss := by
  induction ss using List.reverseRecOn with
  | nil =>
    intro t w ht hw
    exact ⟨Nat.le_refl _, fun h => absurd h (Nat.lt_irrefl 0)⟩
  | append_singleton ss a ih =>
    have hok2 : ∀ st ∈ ss, RcuStepOk N st :=
      fun st hst => hok st (List.mem_append_left _ hst)
    have ha : RcuStepOk N a := hok a (by simp)
    have hInv := ih hok2
    have hexec : rcuExec N (ss ++ [a]) = rcuStep N (rcuExec N ss) a := by
      unfold rcuExec
      rw [List.foldl_append]
      rfl
    cases a with
    | defer u =>
      intro t w ht hw
      rw [hexec]
      have hs : rcuStep N (rcuExec N ss) (RcuStep.defer u)
          = rcuDefer N u (rcuExec N ss) := rfl
      rw [hs, rcuDefer_rcu, rcuDefer_head]
      have hheadle : (rcuExec N ss).head t ≤
          fupd (rcuExec N ss).head u ((rcuExec N ss).head u + 1) t := by
        unfold fupd
        split_ifs with hh
        · subst hh
          omega
        · exact Nat.le_refl _
      by_cases hc : ¬ ((rcuExec N ss).head u + 1
            - (rcuExec N ss).lastPosted u u < RCU_POST_THRESHOLD)
          ∧ w = (u + 1) % N ∧ t = u
      · obtain ⟨hpost, hcw, hct⟩ := hc
        subst hcw
        subst hct
        rw [if_pos ⟨hpost, rfl, rfl⟩]
        constructor
        · unfold fupd
          rw [if_pos rfl]
        · intro hx v hv hdist
          rw [ringDist_self N (t + 1)] at hdist
          omega
      · rw [if_neg hc]
        refine ⟨Nat.le_trans (hInv t w ht hw).1 hheadle, ?_⟩
        intro hx v hv hdist
        exact cert_append N _ ((hInv t w ht hw).2 hx v hv hdist)
    | update u =>
      have hu : u < N := ha
      have hstart : PropInv N (ss ++ [RcuStep.update u]) (rcuExec N ss).head
          (rcuExec N ss) := by
        intro t w ht hw
        refine ⟨(hInv t w ht hw).1, ?_⟩
        intro hx v hv hdist
        exact cert_append N _ ((hInv t w ht hw).2 hx v hv hdist)
      have hfold := propInv_fold N u hu ss (List.range N)
        (fun i hi => List.mem_range.mp hi) _ hstart
      intro t w ht hw
      rw [hexec]
      have hs : rcuStep N (rcuExec N ss) (RcuStep.update u)
          = rcuUpdate N u (rcuExec N ss) := rfl
      rw [hs, rcuUpdate_rcu, rcuUpdate_head]
      exact ⟨(hfold t w ht hw).1, (hfold t w ht hw).2⟩

/-- claim C6: in the quiescent-state reclamation scheme, a block
enqueued by `nbd_defer_free` on thread `t` (step `i`, queue position
`p`) is never passed to `nbd_free` (its position covered by `tail t`
after step `j`) before every registered thread has executed
`rcu_update` at least once after the enqueue; hence no allocation can
return the deferred pointer before that point, since `nbd_free` is what
recycles it. -/
theorem claim_C6 (N : Nat) {ss : List RcuStep} (hok : ∀ st ∈ ss, RcuStepOk N st)
    {t p i j : Nat} (ht : t < N)
    (henq : ss.get? i = some (RcuStep.defer t))
    (hhead : (rcuExec N (ss.take (i + 1))).head t = p + 1)
    (hupd : ss.get? j = some (RcuStep.update t))
    (hfree : p < (rcuExec N (ss.take (j + 1))).tail t) :
    ∀ v, v < N → ∃ m, i < m ∧ m ≤ j ∧ ss.get? m = some (RcuStep.update v) := by
  have hN : 0 < N := by omega
  obtain ⟨hj, -⟩ := List.get?_eq_some.mp hupd
  obtain ⟨hi, -⟩ := List.get?_eq_some.mp henq
  -- the state before the freeing update, and the freed bound x
  have htake_j : ss.take (j + 1) = ss.take j ++ [RcuStep.update t] := by
    rw [List.take_succ, ← List.get?_eq_getElem?, hupd]
    rfl
  have hexec_j : rcuExec N (ss.take (j + 1))
      = rcuUpdate N t (rcuExec N (ss.take j)) := by
    rw [htake_j]
    unfold rcuExec
    rw [List.foldl_append]
    rfl
  have hx : p < (rcuExec N (ss.take j)).rcu t t := by
    rw [hexec_j, rcuUpdate_tail_self] at hfree
    exact hfree
  -- the enqueue counter before the enqueue step was p
  have htake_i : ss.take (i + 1) = ss.take i ++ [RcuStep.defer t] := by
    rw [List.take_succ, ← List.get?_eq_getElem?, henq]
    rfl
  have hhead_i : (rcuExec N (ss.take i)).head t = p := by
    have : rcuExec N (ss.take (i + 1)) = rcuDefer N t (rcuExec N (ss.take i)) := by
      rw [htake_i]
      unfold rcuExec
      rw [List.foldl_append]
      rfl
    rw [this, rcuDefer_head] at hhead
    unfold fupd at hhead
    rw [if_pos rfl] at hhead
    omega
  -- any time the counter has passed p, the enqueue step is in the past
  have hafter : ∀ m, (rcuExec N (ss.take j)).rcu t t
      ≤ (rcuExec N (ss.take m)).head t → i < m := by
    intro m hm
    by_contra hle
    have := head_take_mono N ss t (show m ≤ i by omega)
    rw [hhead_i] at this
    omega
  -- the ring invariant at the prefix before the free
  have hInv := ringInv_holds N (ss.take j)
    (fun st hst => hok st (List.take_subset _ _ hst))
  intro v hv
  by_cases hvt : v = t
  · subst hvt
    refine ⟨j, ?_, Nat.le_refl _, hupd⟩
    exact hafter j (hInv v v hv hv).1
  · have hdlt := ringDist_lt N hN (t + 1) v hv
    have hdself := ringDist_to_self N t hN ht
    have hdne : ¬ ringDist N (t + 1) v = ringDist N (t + 1) t :=
      fun he => hvt (ringDist_inj N (t + 1) hN hv ht he)
    have hdist : ringDist N (t + 1) v < ringDist N (t + 1) t := by omega
    obtain ⟨m, hm, hget, hmx⟩ :=
      (hInv t t ht ht).2 (by omega) v hv hdist
    have hmj : m < j := by
      have : (ss.take j).length ≤ j := by
        rw [List.length_take]
        omega
      omega
    refine ⟨m, ?_, by omega, ?_⟩
    · refine hafter m ?_
      rw [List.take_take, Nat.min_eq_left (by omega)] at hmx
      exact hmx
    · rw [List.get?_take hmj] at hget
      exact hget

/-! ## Claims -/

/-- claim C1 (amended): for each of the three map implementations, for
an integer key that is nonzero (the hash table stores key 0 as the
empty-slot sentinel, so it can neither be stored nor found) and below
2^31 (so the 32-bit-truncated key comparison of list.c:128 and
skiplist.c:179 is exact), and an untagged positive value, starting from
a well-formed map not containing the key: add returns `ABSENT` and
installs the entry, get returns the value, remove returns the value and
restores the state, and a following get returns `ABSENT`.  For the hash
table the probe must land (`found`); otherwise the add triggers a
resize instead. -/
theorem claim_C1_amended {k v : Nat} (hk0 : 0 < k) (hk : k < 2 ^ 31) (hv : LegalVal v)
    {c : List LNode} (hcwf : ListWF c) (hcabs : ∀ n ∈ c, n.key ≠ k)
    (lvl : Nat) {sl : List SNode} (hswf : SlWF sl) (hsabs : ∀ n ∈ sl, n.key ≠ k)
    {g : Hti} (hgwf : HtiWF g)
    (habs : ∀ e ∈ g.table, e.key = k → e.val = DOES_NOT_EXIST ∨ e.val = TOMBSTONE)
    {i : Nat} {emp : Bool} {cnt : Nat}
    (hfind : hti_lookup g k (murmur32_8b k) = (.found i emp, cnt)) (fuel : Nat) :
    (ll_cas k CAS_EXPECT_DOES_NOT_EXIST v c = some (DOES_NOT_EXIST, insertChain k v c)
      ∧ ll_lookup k (insertChain k v c) = v
      ∧ ll_remove k (insertChain k v c) = (v, c)
      ∧ ll_lookup k c = DOES_NOT_EXIST)
    ∧ (sl_cas sl k CAS_EXPECT_DOES_NOT_EXIST v lvl
          = some (DOES_NOT_EXIST, insertSl k v lvl sl)
      ∧ sl_lookup (insertSl k v lvl sl) k = v
      ∧ sl_remove (insertSl k v lvl sl) k = (v, sl)
      ∧ sl_lookup sl k = DOES_NOT_EXIST)
    ∧ (ht_cas (fuel + 1) [g] k (murmur32_8b k) CAS_EXPECT_DOES_NOT_EXIST v
          = (DOES_NOT_EXIST, [addedGen g i k v emp])
      ∧ ht_get (fuel + 1) [addedGen g i k v emp] k = (v, [addedGen g i k v emp])
      ∧ ht_remove (ht_count [addedGen g i k v emp]) (fuel + 1)
            [addedGen g i k v emp] k (murmur32_8b k)
          = (v, [removedGen (addedGen g i k v emp) i])
      ∧ ht_get (fuel + 1) [removedGen (addedGen g i k v emp) i] k
          = (DOES_NOT_EXIST, [removedGen (addedGen g i k v emp) i])) := by
  have hkD : ¬ k = DOES_NOT_EXIST := by
    unfold DOES_NOT_EXIST
    omega
  have hlenT : i < g.table.length := hti_found_lt hgwf hfind
  have hlook := hti_lookup_added hgwf hkD v hfind
  have hval : (entAt (addedGen g i k v emp).table i).val = v := by
    rw [addedGen_table_eq i k v emp hlenT]
  have hlen1 : i < (addedGen g i k v emp).table.length := by
    have he : (addedGen g i k v emp).table.length = g.table.length := by
      show (setEntVal (if emp then setEntKey g.table i k else g.table) i v).length = _
      rw [setEntVal_length]
      cases emp with
      | true => exact setEntKey_length g.table i k
      | false => rfl
    omega
  exact ⟨⟨ll_cas_insert v hk c hcwf hcabs,
      ll_lookup_insert v hk c hcwf hcabs,
      ll_remove_insert v hk c hcwf hcabs,
      ll_lookup_absent hk c hcwf hcabs⟩,
    ⟨sl_cas_insert v lvl hk hswf hsabs,
      sl_lookup_insert v lvl hk hv.1 hswf hsabs,
      sl_remove_insert v lvl hk hv.1 hswf hsabs,
      sl_lookup_absent hk hswf hsabs⟩,
    ht_cas_add_single hgwf hkD hv habs hfind fuel,
    hti_get_added hgwf hkD hv hfind _ fuel,
    ht_remove_single hlook hv hval _ fuel,
    hti_get_removed hlook hlen1 _ fuel⟩

/-- claim C1 witness: the amended round trip at key 5, value 7, empty
list and skiplist, and a fresh scale-4 hash table. -/
theorem claim_C1_amended_witness :
    ht_get 1 [addedGen (hti_alloc 4) 5 5 7 true] 5
        = (7, [addedGen (hti_alloc 4) 5 5 7 true])
      ∧ ll_lookup 5 (insertChain 5 7 []) = 7 := by
  have h := @claim_C1_amended 5 7 (by decide) (by decide) (by decide)
    [] (by decide) (by decide) 0 [] (by decide) (by decide)
    (hti_alloc 4) (by decide) (by decide) 5 true 1 (by decide) 0
  exact ⟨h.2.2.2.1, h.1.2.1⟩

/-- claim C1 counterexample to the original statement ("every integer
key"): key 0 on a fresh hash table is absorbed by the empty-slot
sentinel — the add reports success but the following get misses — and
on the list, key 5 is aliased by the stored key 2^32+5 under the
truncated comparison (the chain does not contain 5, yet the add fails
and get returns the aliased node's value 9, not 7). -/
theorem claim_C1_counterexample :
    ((ht_get 1 (ht_cas 1 [hti_alloc 4] 0 (murmur32_8b 0)
          CAS_EXPECT_DOES_NOT_EXIST 7).2 0).1 = DOES_NOT_EXIST
      ∧ ¬ (ht_get 1 (ht_cas 1 [hti_alloc 4] 0 (murmur32_8b 0)
          CAS_EXPECT_DOES_NOT_EXIST 7).2 0).1 = 7)
    ∧ ((∀ n ∈ [({ key := 2 ^ 32 + 5, val := 9, marked := false } : LNode)], n.key ≠ 5)
      ∧ ll_cas 5 CAS_EXPECT_DOES_NOT_EXIST 7 [⟨2 ^ 32 + 5, 9, false⟩]
          = some (9, [⟨2 ^ 32 + 5, 9, false⟩])
      ∧ ¬ ll_lookup 5 [⟨2 ^ 32 + 5, 9, false⟩] = 7) := by
  decide

/-- claim C2 (amended): the failure cases each implementation really
checks.  List and skiplist fail (returning `ABSENT` resp. the observed
value, unchanged) when an existence expectation misses or
`DOES_NOT_EXIST` meets a present key; the hash table additionally
checks a concrete expected value against the stored one
(hashtable.c:368-376) and fails on an empty or dead slot when existence
was demanded. -/
theorem claim_C2_amended {k : Nat} (hk : k < 2 ^ 31) (v : Nat)
    {e : Nat} (he : (0 < e ∧ e < TAG1) ∨ e = CAS_EXPECT_EXISTS)
    {c : List LNode} (hcwf : ListWF c) (hcabs : ∀ n ∈ c, n.key ≠ k)
    {c2 : List LNode} (hc2wf : ListWF c2) {m : LNode} (hm : m ∈ c2) (hmk : m.key = k)
    (lvl : Nat) {sl : List SNode} (hswf : SlWF sl) (hsabs : ∀ n ∈ sl, n.key ≠ k)
    {sl2 : List SNode} (hs2wf : SlWF sl2) {m2 : SNode} (hm2 : m2 ∈ sl2)
    (hm2k : m2.key = k)
    {g : Hti} {kh i cnt : Nat} (hfind : hti_lookup g k kh = (.found i false, cnt))
    {w : Nat} (hw : LegalVal w) (hval : (entAt g.table i).val = w)
    {e2 : Nat} (he2W : ¬ e2 = CAS_EXPECT_WHATEVER) (he2E : ¬ e2 = CAS_EXPECT_EXISTS)
    (he2v : ¬ e2 = w)
    {g2 : Hti} {i2 cnt2 : Nat} (hfind2 : hti_lookup g2 k kh = (.found i2 true, cnt2))
    {e3 : Nat} (he3 : ¬ (e3 = CAS_EXPECT_WHATEVER ∨ e3 = CAS_EXPECT_DOES_NOT_EXIST))
    (totalCount : Int) (fuel : Nat) (rest : List Hti) (newv : Nat) :
    ll_cas k e v c = some (DOES_NOT_EXIST, c)
    ∧ ll_cas k CAS_EXPECT_DOES_NOT_EXIST v c2 = some (m.val, c2)
    ∧ sl_cas sl k e v lvl = some (DOES_NOT_EXIST, sl)
    ∧ sl_cas sl2 k CAS_EXPECT_DOES_NOT_EXIST v lvl = some (m2.val, sl2)
    ∧ hti_cas totalCount fuel g rest k kh e2 newv = (w, g, rest)
    ∧ hti_cas totalCount fuel g2 rest k kh e3 newv = (DOES_NOT_EXIST, g2, rest) :=
  ⟨ll_cas_fail_absent v hk he c hcwf hcabs,
   ll_cas_dne_present v hk c2 hc2wf m hm hmk,
   sl_cas_fail_absent v lvl hk he hswf hsabs,
   sl_cas_dne_present v lvl hk hs2wf hm2 hm2k,
   hti_cas_fail_mismatch hfind hw hval he2W he2E he2v totalCount fuel rest newv,
   hti_cas_fail_empty he3 hfind2 totalCount fuel rest newv⟩

/-- claim C2 witness: the amended failure cases at concrete inputs
(key 5, mismatched expectation 9 against stored 7 for the hash table,
`DOES_NOT_EXIST` against a present key for the list). -/
theorem claim_C2_amended_witness :
    hti_cas 0 0 (addedGen (hti_alloc 4) 5 5 7 true) [] 5 (murmur32_8b 5) 9 11
        = (7, addedGen (hti_alloc 4) 5 5 7 true, [])
      ∧ ll_cas 5 CAS_EXPECT_DOES_NOT_EXIST 4
          [({ key := 5, val := 7, marked := false } : LNode)]
        = (some (7, [({ key := 5, val := 7, marked := false } : LNode)])) := by
  have h := @claim_C2_amended 5 (by decide) 4 CAS_EXPECT_EXISTS (by decide)
    [] (by decide) (by decide)
    [⟨5, 7, false⟩] (by decide) ⟨5, 7, false⟩ (by decide) (by decide)
    0 [] (by decide) (by decide)
    [⟨5, 7, 0⟩] (by decide) ⟨5, 7, 0⟩ (by decide) (by decide)
    (addedGen (hti_alloc 4) 5 5 7 true) (murmur32_8b 5) 5 1 (by decide)
    7 (by decide) (by decide)
    9 (by decide) (by decide) (by decide)
    (hti_alloc 4) 5 1 (by decide)
    CAS_EXPECT_EXISTS (by decide) 0 0 [] 11
  exact ⟨h.2.2.2.2.1, h.2.1⟩

/-- claim C2 counterexample to the original statement: on the list a
cas whose concrete expectation (5) differs from the stored value (7)
does not fail — the found path (list.c:222-248) checks only
`CAS_EXPECT_DOES_NOT_EXIST`, so the value is overwritten and the map
changed. -/
theorem claim_C2_counterexample :
    ll_cas 3 5 9 [({ key := 3, val := 7, marked := false } : LNode)]
        = some (7, [⟨3, 9, false⟩])
    ∧ ¬ (([⟨3, 9, false⟩] : List LNode) = [⟨3, 7, false⟩]) := by
  decide

/-- claim C3 (code bug): `find_pred` compares keys with
`int d = key_a - key_b` truncated to 32 bits (list.c:128,
skiplist.c:179), so an insert of a key at distance ≥ 2^32 can land out
of order: inserting key 2^32 into the well-formed chain holding key 1
places the new node in front (the truncated difference 1 − 2^32 reads
as +1), and the resulting bottom-level chain is no longer strictly
ascending — `ll_cas` does not preserve the ordered-structure invariant.
`find_pred`'s own ordering assert (list.c:133-136) fires on the next
traversal of such a chain. -/
theorem claim_C3_bug :
    ListWF [({ key := 1, val := 5, marked := false } : LNode)]
    ∧ ll_cas (2 ^ 32) CAS_EXPECT_DOES_NOT_EXIST 7 [⟨1, 5, false⟩]
        = some (DOES_NOT_EXIST, [⟨2 ^ 32, 7, false⟩, ⟨1, 5, false⟩])
    ∧ ¬ ChainOrdered [⟨2 ^ 32, 7, false⟩, ⟨1, 5, false⟩] := by
  refine ⟨by decide, by decide, ?_⟩
  intro hcon
  unfold ChainOrdered at hcon
  rw [show strippedKeys [⟨2 ^ 32, 7, false⟩, ⟨1, 5, false⟩] = [2 ^ 32, 1] from by decide]
    at hcon
  rcases List.chain'_cons.mp hcon with ⟨hlt, -⟩
  exact absurd hlt (by decide)

/-- claim C4 (amended): `txn_abort` on a RUNNING transaction publishes
`ABORTED_VERSION` to every update record of the write log but does NOT
retire: the active-transactions map and the global version are left
untouched (txn.c:189-202 only writes the records and defers the frees).
The retire the claim describes — decrement the reference count of `rv`,
remove the key when the count was 1 while `rv` differs from the current
version — is performed by `txn_commit`'s loop (txn.c:220-230). -/
theorem claim_C4_amended (txn : Txn) (env : TxnEnv) (h : txn.state = TxnStateE.running)
    {n : Nat} (hfind : env.active.find? (fun p => p.1 = txn.rv) = some (txn.rv, n))
    (h32 : n < 2 ^ 32) (fuel : Nat) :
    (∀ w ∈ txn.writes, w.urec < env.heap.length →
        ((txn_abort txn env).2.heap.get? w.urec).map UpdateRec.version
          = some ABORTED_VERSION)
      ∧ (txn_abort txn env).2.active = env.active
      ∧ (txn_abort txn env).2.version = env.version
      ∧ (n = 2 → txn_commit_retire (fuel + 1) env.active txn.rv env.version
          = some (slSetCount env.active txn.rv 1))
      ∧ (n = 1 → ¬ txn.rv = env.version →
          txn_commit_retire (fuel + 1) env.active txn.rv env.version
            = some (slRemoveKey env.active txn.rv))
      ∧ (3 ≤ n → ¬ txn.rv = env.version →
          txn_commit_retire (fuel + 2) env.active txn.rv env.version
            = some (slRemoveKey env.active txn.rv)) := by
  have habort : txn_abort txn env
      = (txn, { env with
          heap := txn.writes.foldl (fun hp w => setVersion ABORTED_VERSION hp w.urec) env.heap }) := by
    unfold txn_abort
    rw [if_neg (not_not_intro h)]
  refine ⟨?_, by rw [habort], by rw [habort], ?_, ?_, ?_⟩
  · intro w hw hlen
    rw [habort]
    exact abort_fold_sets ABORTED_VERSION txn.writes env.heap w hw hlen
  · intro h2
    exact retire_decrements (h2 ▸ hfind) fuel
  · intro h1 hne
    exact retire_removes_one (h1 ▸ hfind) hne fuel
  · intro h3 hne
    exact retire_removes_many hfind h3 h32 hne fuel

/-- claim C4 witness: a running transaction with one logged update and
read-version count 2. -/
theorem claim_C4_amended_witness :
    (txn_abort ⟨1, 0, [⟨7, 0⟩], TxnStateE.running⟩
        ⟨[⟨5, 9, 0⟩], [(1, 2)], 2⟩).2.active = [(1, 2)]
      ∧ txn_commit_retire 1 [(1, 2)] 1 2 = some (slSetCount [(1, 2)] 1 1) := by
  have h := @claim_C4_amended ⟨1, 0, [⟨7, 0⟩], TxnStateE.running⟩
    ⟨[⟨5, 9, 0⟩], [(1, 2)], 2⟩ (by decide) 2 (by decide) (by decide) 0
  exact ⟨h.2.1, h.2.2.2.1 rfl⟩

/-- claim C4 counterexample to the original statement: with the
read-version count at 1 and `rv = 1` older than the global version 2,
the claimed retire would remove the key — as `txn_commit`'s loop indeed
does — but `txn_abort` leaves the active-transactions map unchanged.
Moreover even `txn_commit`'s loop does not implement the claimed
decrement: at count 3 the unchecked `sl_cas` overwrite makes it remove
the key outright. -/
theorem claim_C4_counterexample :
    (txn_abort ⟨1, 0, [⟨7, 0⟩], TxnStateE.running⟩
        ⟨[⟨5, 9, 0⟩], [(1, 1)], 2⟩).2.active = [(1, 1)]
    ∧ slRemoveKey [(1, 1)] 1 = []
    ∧ txn_commit_retire 1 [(1, 1)] 1 2 = some []
    ∧ txn_commit_retire 2 [(1, 3)] 1 2 = some [] := by
  decide

/-- claim C5 (amended): on a transaction that is not RUNNING,
`txn_map_get` returns the small-negative error code
`ERROR_TXN_NOT_RUNNING` and mutates nothing; `txn_map_set` mutates
nothing either, but being `void` (txn.c:353-355, with the source's TODO
comment) it returns no error code at all. -/
theorem claim_C5_amended (gbody : Txn → TxnEnv → Nat → Nat × TxnEnv)
    (sbody : Txn → TxnEnv → Nat → Nat → Txn × TxnEnv)
    (txn : Txn) (env : TxnEnv) (key value : Nat)
    (h : ¬ txn.state = TxnStateE.running) :
    txn_map_get gbody txn env key = (ERROR_TXN_NOT_RUNNING, env)
      ∧ txn_map_set sbody txn env key value = (none, txn, env) := by
  unfold txn_map_get txn_map_set
  rw [if_pos h, if_pos h]
  exact ⟨rfl, rfl⟩

/-- claim C5 witness: an aborted transaction, arbitrary bodies. -/
theorem claim_C5_amended_witness :
    txn_map_get (fun _ e _ => (0, e)) ⟨1, 0, [], TxnStateE.aborted⟩ ⟨[], [], 1⟩ 3
        = (ERROR_TXN_NOT_RUNNING, (⟨[], [], 1⟩ : TxnEnv))
      ∧ txn_map_set (fun t e _ _ => (t, e)) ⟨1, 0, [], TxnStateE.aborted⟩
          ⟨[], [], 1⟩ 3 4
        = (none, (⟨1, 0, [], TxnStateE.aborted⟩ : Txn), (⟨[], [], 1⟩ : TxnEnv)) :=
  claim_C5_amended _ _ _ _ 3 4 (by decide)

/-- claim C5 counterexample to the original statement: `txn_map_set`
after an abort returns no value at all — there is no error code the
caller could receive. -/
theorem claim_C5_counterexample :
    ((txn_map_set (fun t e _ _ => (t, e)) ⟨1, 0, [], TxnStateE.aborted⟩
        ⟨[], [], 1⟩ 3 4).1).isSome = false := by
  decide

/-- claim C7 (amended): the probe bound of a generation is the MINIMUM
of `⌊2^(scale−2)/ENTRIES_PER_BUCKET⌋ + 4` and 250 — hti_alloc
(hashtable.c:139-142) caps the formula above at
`MAX_BUCKETS_TO_PROBE` — and `hti_lookup` examines at most `max_probe`
buckets before returning "no room". -/
theorem claim_C7_amended (scale : Nat) (g : Hti) (k kh : Nat) :
    maxProbeOf scale
        = min (2 ^ (scale - 2) / ENTRIES_PER_BUCKET + 4) MAX_BUCKETS_TO_PROBE
      ∧ (hti_alloc scale).maxProbe = maxProbeOf scale
      ∧ (hti_lookup g k kh).2 ≤ g.maxProbe :=
  ⟨maxProbeOf_eq_min scale, rfl, hti_lookup_le_maxProbe g k kh⟩

/-- claim C7 counterexample to the original statement: at scale 4 the
allocator computes `max_probe = 5`, while the claimed maximum formula
gives 250. -/
theorem claim_C7_counterexample :
    (hti_alloc 4).maxProbe = 5
    ∧ ¬ (hti_alloc 4).maxProbe
        = max (2 ^ (4 - 2) / ENTRIES_PER_BUCKET + 4) MAX_BUCKETS_TO_PROBE := by
  decide

/-- claim C8: the successor generation's scale grows by one doubling if
the live count exceeds a quarter of the capacity and by a second if it
also exceeds a quarter of the doubled capacity (i.e. half the original),
and a CAS loser keeps the already-installed successor (freeing its own
fresh table). -/
theorem claim_C8 (scale : Nat) (h4 : 4 ≤ scale) (count totalCount : Int)
    (g old : Hti) (r : List Hti) :
    newScaleOf scale count
        = (if count > 2 ^ (scale - 1) then scale + 2
           else if count > 2 ^ (scale - 2) then scale + 1 else scale)
      ∧ hti_start_copy totalCount g [] = [hti_alloc (newScaleOf g.scale totalCount)]
      ∧ hti_start_copy totalCount g (old :: r) = old :: r :=
  ⟨newScaleOf_formula scale count h4, rfl, rfl⟩

/-- claim C8 witness: scale 4 with 5 live entries (over a quarter of
16, not over half) grows by exactly one. -/
theorem claim_C8_witness : newScaleOf 4 5 = 5 ∧ (4 : Nat) ≤ 4 := by
  have h := claim_C8 4 (by decide) 5 0 (hti_alloc 4) (hti_alloc 4) []
  rw [h.1]
  decide

/-- claim C9: `ht_remove` computes the same result and produces the
same table state as the cas loop specialized to `CAS_EXPECT_WHATEVER`
with the deletion value (which stores `TOMBSTONE`), the returned
previous value translated to the removed value, or `ABSENT` when the
key was absent or already tombstoned. -/
theorem claim_C9 (totalCount : Int) (fuel : Nat) (chain : List Hti) (k kh : Nat) :
    ht_remove totalCount fuel chain k kh = htRemoveSpec totalCount fuel chain k kh :=
  ht_remove_eq_spec totalCount fuel chain k kh

/-- claim C10: from the cursor `ht_iter_start` returns, every entry
read `ht_iter_next` performs uses an index strictly inside the entry
array: over the total embedding where reads return an Option, the
out-of-range (error) branch is unreachable for any number of calls. -/
theorem claim_C10 (totalCount : Int) (hfuel : Nat) {g : Hti}
    (hlen : g.table.length = 2 ^ g.scale) (hs : 1 ≤ g.scale)
    {g1 : Hti} {idx0 : Int} (hstart : ht_iter_start g = some (g1, idx0))
    (rest : List Hti) (n : Nat) :
    ∃ o, iterN totalCount hfuel g1 rest n idx0 = .ok o := by
  unfold ht_iter_start at hstart
  by_cases h : g.references = -1
  · rw [if_pos h] at hstart
    cases hstart
  · rw [if_neg h] at hstart
    injection hstart with h2
    injection h2 with hg1 hidx
    subst hg1
    subst hidx
    have hp : (0 : Int) < ((2 ^ g.scale : Nat) : Int) := by
      exact_mod_cast Nat.pos_pow_of_pos g.scale (by omega)
    exact iterN_ok totalCount hfuel { g with references := g.references + 1 } rest
      hlen hs n (-1) (by decide) (by decide)
      (show (-1 : Int) < ((2 ^ g.scale : Nat) : Int) by omega)

/-- claim C10 witness: three iterator steps over a fresh scale-4
generation never reach the error branch. -/
theorem claim_C10_witness :
    ∃ o, iterN 0 1 { hti_alloc 4 with references := 1 } [] 3 (-1) = .ok o := by
  exact @claim_C10 0 1 (hti_alloc 4) (by decide) (by decide)
    ({ hti_alloc 4 with references := 1 }) (-1) (by decide) [] 3

/-- claim C6 witness: one thread, ten deferred frees (the tenth post
crosses the threshold), one update that frees them; the freeing update
is the required update of the only thread, strictly after the
enqueue. -/
theorem claim_C6_witness :
    ∃ m, 0 < m ∧ m ≤ 10 ∧
      (List.replicate 10 (RcuStep.defer 0) ++ [RcuStep.update 0]).get? m
        = some (RcuStep.update 0) := by
  exact @claim_C6 1 (List.replicate 10 (RcuStep.defer 0) ++ [RcuStep.update 0])
    (by decide) 0 0 0 10 (by decide) (by decide) (by decide) (by decide) (by decide)
    0 (by decide)

end Nbds
